import Mathlib

/-!
Verification of the expense-tracker core (`expense_tracker.py`):
`sanitize_expense` / `sanitize_all`, `calculate_balances`, `suggest_payments`.

Modelling decisions (shallow embedding of the Python source):
* Python floats are modelled as `ℚ`.  `round(x, 2)` is modelled as rounding
  `100*x` to the nearest integer and dividing by 100; exact-half ties (and
  binary floating-point representation effects) are abstracted to round-half-up.
  No claim below depends on the tie direction.
* Python values are modelled by the inductive type `PyVal`; dictionaries are
  insertion-ordered association lists (Python dicts preserve insertion order
  and overwrite values in place), with dictionary keys modelled as strings.
* `str()` of a non-string object is abstracted (only its non-emptiness is ever
  relevant to the core); `float()` of a string is modelled for the usual
  sign/digits/decimal-point forms, with scientific notation, `inf`/`nan` and
  underscore separators left out (no claim depends on them).
-/

/-- Model of Python `round(x, 2)`. -/
def round2 (q : ℚ) : ℚ := (round (q * 100) : ℚ) / 100

/-- ASCII whitespace recognised by Python's `str.strip()`. -/
def isSpace (c : Char) : Bool :=
  c = ' ' || c = '\t' || c = '\n' || c = '\r' || c = '\x0b' || c = '\x0c'

/-- Model of Python `str.strip()`: drop leading and trailing whitespace. -/
def pyStrip (s : String) : String :=
  ⟨List.rdropWhile isSpace (List.dropWhile isSpace s.data)⟩

/-- A Python runtime value, as far as the tracker's core manipulates them. -/
inductive PyVal where
  | vstr (s : String)
  | vnum (q : ℚ)
  | vnone
  | vlist (l : List PyVal)
  | vdict (d : List (String × PyVal))

/-- Python truthiness (`bool(x)`) for the modelled values. -/
def truthy : PyVal → Bool
  | .vstr s => !s.isEmpty
  | .vnum q => if q = 0 then false else true
  | .vnone => false
  | .vlist l => !l.isEmpty
  | .vdict d => !d.isEmpty

/-- Python `x or y` on objects: `y` when `x` is falsy, else `x`. -/
def pyOr (a b : PyVal) : PyVal := if truthy a then a else b

/-- Python `str(x)`.  Exact on strings; the textual representation of other
values is abstracted (the core only ever uses it through emptiness checks,
or as an opaque person name). -/
def pyStr : PyVal → String
  | .vstr s => s
  | .vnum q => toString q
  | .vnone => "None"
  | .vlist _ => "<list>"
  | .vdict _ => "<dict>"

/-- Numeric value of a digit string. -/
def natOfDigits (l : List Char) : ℕ := l.foldl (fun n c => 10 * n + (c.toNat - 48)) 0

/-- Parse an unsigned float literal: digits with an optional single decimal
point (at least one digit overall), as accepted by Python's `float()`. -/
def parseUnsigned (l : List Char) : Option ℚ :=
  let intp := l.takeWhile Char.isDigit
  let rest := l.dropWhile Char.isDigit
  match rest with
  | [] => if intp.isEmpty then none else some (natOfDigits intp)
  | '.' :: r2 =>
    let frac := r2.takeWhile Char.isDigit
    let r3 := r2.dropWhile Char.isDigit
    if r3.isEmpty then
      if intp.isEmpty && frac.isEmpty then none
      else some ((natOfDigits intp : ℚ) + (natOfDigits frac : ℚ) / (10 ^ frac.length))
    else none
  | _ => none

/-- Model of Python `float(s)` on a string: strip whitespace, optional sign,
then an unsigned literal.  `none` models a raised `ValueError`. -/
def pyFloatStr (s : String) : Option ℚ :=
  match (pyStrip s).data with
  | '+' :: r => parseUnsigned r
  | '-' :: r => Option.map Neg.neg (parseUnsigned r)
  | r => parseUnsigned r

/-- Model of Python `float(x)` on a value.  `none` models a raised
`TypeError`/`ValueError` (e.g. on `None`, lists, dicts, non-numeric strings). -/
def pyFloat : PyVal → Option ℚ
  | .vnum q => some q
  | .vstr s => pyFloatStr s
  | _ => none

/-- First-match association lookup, the reading half of Python dict access. -/
def alookup : List (String × PyVal) → String → Option PyVal
  | [], _ => none
  | (k', v) :: rest, k => if k' = k then some v else alookup rest k

/-- Python `d.get(k, default)`. -/
def pyGet (d : List (String × PyVal)) (k : String) (dflt : PyVal) : PyVal :=
  (alookup d k).getD dflt

/-- Python `d[k] = v`: overwrite in place if the key exists (keeping its
position, as Python dicts do), else append. -/
def dictSet : List (String × PyVal) → String → PyVal → List (String × PyVal)
  | [], k, v => [(k, v)]
  | (k', v') :: rest, k, v => if k' = k then (k, v) :: rest else (k', v') :: dictSet rest k v

/-- Same in-place-or-append write for the cleaned `name ↦ share` mapping. -/
def dictInsertQ : List (String × ℚ) → String → ℚ → List (String × ℚ)
  | [], k, v => [(k, v)]
  | (k', v') :: rest, k, v => if k' = k then (k, v) :: rest else (k', v') :: dictInsertQ rest k v

/-- The list-participants comprehension
`[p.strip() for p in participants if p and str(p).strip()]`.
The filter is evaluated first; for an element that passes, `p.strip()` raises
(`none`) unless `p` is a string. -/
def listClean : List PyVal → Option (List String)
  | [] => some []
  | p :: ps =>
    if truthy p = true ∧ pyStrip (pyStr p) ≠ "" then
      match p with
      | .vstr s => Option.map (fun r => pyStrip s :: r) (listClean ps)
      | _ => none
    else listClean ps

/-- The dict-participants cleaning loop of `sanitize_expense`: strip each key,
coerce each value with `float` defaulting to `0.0` on failure, drop empty
names, write with Python-dict overwrite semantics. -/
def cleanShares (pd : List (String × PyVal)) : List (String × ℚ) :=
  pd.foldl (fun acc kv =>
    let name := pyStrip kv.1
    let share := (pyFloat kv.2).getD 0
    if name = "" then acc else dictInsertQ acc name share) []

/-- `cleaned[first_key] = round(cleaned[first_key] + diff, 2)`: the cleaned
mapping has unique keys (built by `dictInsertQ`), so assigning to
`next(iter(cleaned.keys()))` updates the head entry. -/
def updateHead : List (String × ℚ) → ℚ → List (String × ℚ)
  | [], _ => []
  | kv :: rest, diff => (kv.1, round2 (kv.2 + diff)) :: rest

/-- The share-normalisation of `sanitize_expense` for dict participants:
equal-split fallback when the cleaned shares sum to zero, rescale-and-round
with remainder on the first entry when the sum is positive and off by more
than 0.01, otherwise leave the shares as they are. -/
def fixShares (amount : ℚ) (cleaned : List (String × ℚ)) : List (String × ℚ) :=
  let total := (cleaned.map (fun kv => kv.2)).sum
  if total = 0 ∧ cleaned ≠ [] then
    cleaned.map (fun kv => (kv.1, round2 (amount / (cleaned.length : ℚ))))
  else if 1/100 < |total - amount| ∧ 0 < total then
    let scaled := cleaned.map (fun kv => (kv.1, round2 (kv.2 * (amount / total))))
    let diff := round2 (amount - (scaled.map (fun kv => kv.2)).sum)
    if 1/100 ≤ |diff| then updateHead scaled diff
    else scaled
  else cleaned

/-- Encode the normalised shares back as Python values. -/
def encodeShares (l : List (String × ℚ)) : List (String × PyVal) :=
  l.map (fun kv => (kv.1, PyVal.vnum kv.2))

/-- `sanitize_expense(e)`.  `none` models an exception escaping the function
(caught by `sanitize_all`): a non-dict record (`.copy()`/`.get` raises), a
truthy non-numeric `amount` (`float` raises), or a truthy non-string
participants-list entry (`p.strip()` raises). -/
def sanitize_expense (e : PyVal) : Option PyVal :=
  match e with
  | .vdict d =>
    let payer := pyStrip (pyStr (pyGet d "payer" (.vstr "")))
    match pyFloat (pyOr (pyGet d "amount" (.vnum 0)) (.vnum 0)) with
    | none => none
    | some amount =>
      let d1 := dictSet d "payer" (.vstr payer)
      match pyGet d "participants" (.vlist []) with
      | .vlist l =>
        match listClean l with
        | none => none
        | some cleaned =>
          some (.vdict (dictSet d1 "participants" (.vlist (cleaned.map .vstr))))
      | .vdict pd =>
        some (.vdict (dictSet d1 "participants"
          (.vdict (encodeShares (fixShares amount (cleanShares pd))))))
      | _ => some (.vdict (dictSet d1 "participants" (.vlist [])))
  | _ => none

/-- `sanitize_all(expenses)`: sanitize a copy of each record, skipping records
whose sanitization raises. -/
def sanitize_all (expenses : List PyVal) : List PyVal :=
  expenses.filterMap sanitize_expense

/-- Insert into the `people` accumulator (Python uses a `set`; its arbitrary
iteration order is modelled as first-insertion order — no claim proved below
depends on the order of the resulting balance sheet). -/
def addPerson (acc : List String) (s : String) : List String :=
  if s ∈ acc then acc else acc ++ [s]

/-- `get_all_people(expenses)`.  Called on sanitized records, where `payer`
and `participants` are always present (a missing key would raise in Python;
modelled with the corresponding defaults). -/
def get_all_people (expenses : List PyVal) : List String :=
  expenses.foldl (fun acc e =>
    match e with
    | .vdict d =>
      let acc := addPerson acc (pyStr (pyGet d "payer" (.vstr "")))
      match pyGet d "participants" (.vlist []) with
      | .vdict pd => pd.foldl (fun a kv => addPerson a kv.1) acc
      | .vlist l => l.foldl (fun a p => addPerson a (pyStr p)) acc
      | _ => acc
    | _ => acc) []

/-- `balances[p] = balances.get(p, 0.0) + x`. -/
def balAdd : List (String × ℚ) → String → ℚ → List (String × ℚ)
  | [], p, x => [(p, x)]
  | (k, v) :: rest, p, x => if k = p then (k, v + x) :: rest else (k, v) :: balAdd rest p x

/-- The per-record body of the balance fold in `calculate_balances`: debit each
participant (a dict share, or an equal `amount/len` split), credit the payer
with the full amount.  Called on sanitized records, where `participants` is a
list or a dict. -/
def applyExpense (b : List (String × ℚ)) (e : PyVal) : List (String × ℚ) :=
  match e with
  | .vdict d =>
    let payer := pyStr (pyGet d "payer" (.vstr ""))
    let amount := (pyFloat (pyOr (pyGet d "amount" (.vnum 0)) (.vnum 0))).getD 0
    match pyGet d "participants" (.vlist []) with
    | .vdict pd =>
      balAdd (pd.foldl (fun b' kv => balAdd b' kv.1 (-((pyFloat kv.2).getD 0))) b) payer amount
    | .vlist l =>
      if l.isEmpty then balAdd b payer amount
      else balAdd (l.foldl (fun b' p => balAdd b' (pyStr p) (-(amount / (l.length : ℚ)))) b)
        payer amount
    | _ => b
  | _ => b

/-- The final rounding step of `calculate_balances`: round to 2 decimals and
collapse anything below 0.01 in absolute value to `0.0`. -/
def roundBal (v : ℚ) : ℚ :=
  let r := round2 v
  if |r| < 1/100 then 0 else r

/-- `calculate_balances(expenses)`: sanitize, initialise every known person to
zero, fold the expenses, round. -/
def calculate_balances (expenses : List PyVal) : List (String × ℚ) :=
  let cleaned := sanitize_all expenses
  let people := get_all_people cleaned
  let b := cleaned.foldl applyExpense (people.map (fun p => (p, (0:ℚ))))
  b.map (fun kv => (kv.1, roundBal kv.2))

/-- The creditors partition of `suggest_payments`: `(p, amt)` with `amt > 0`. -/
def creditorsOf (balances : List (String × ℚ)) : List (String × ℚ) :=
  balances.filter (fun kv => decide (0 < kv.2))

/-- The debtors partition of `suggest_payments`: `(p, -amt)` with `amt < 0`. -/
def debtorsOf (balances : List (String × ℚ)) : List (String × ℚ) :=
  balances.filterMap (fun kv => if kv.2 < 0 then some (kv.1, -kv.2) else none)

/-- Insertion step of a stable descending sort by amount. -/
def insertDesc (x : String × ℚ) : List (String × ℚ) → List (String × ℚ)
  | [] => [x]
  | y :: ys => if y.2 < x.2 then x :: y :: ys else y :: insertDesc x ys

/-- Stable descending sort by amount, as Python's
`list.sort(key=lambda x: x[1], reverse=True)` (stability pins down the
permutation, so this insertion sort computes the same list). -/
def sortDesc (l : List (String × ℚ)) : List (String × ℚ) :=
  l.foldl (fun acc x => insertDesc x acc) []

/-- The two-cursor settlement loop of `suggest_payments`, with explicit fuel
(the loop provably needs at most `|debtors| + |creditors|` iterations;
`none` means the fuel ran out). -/
def spLoop : ℕ → List (String × ℚ) → List (String × ℚ) → ℕ → ℕ →
    List (String × String × ℚ) → Option (List (String × String × ℚ))
  | 0, _, _, _, _, _ => none
  | Nat.succ fuel, debtors, creditors, i, j, acc =>
    if h : i < debtors.length ∧ j < creditors.length then
      let dk := debtors.get ⟨i, h.1⟩
      let ck := creditors.get ⟨j, h.2⟩
      if dk.1 = ck.1 then
        if ck.2 < dk.2 then spLoop fuel debtors creditors i (j+1) acc
        else spLoop fuel debtors creditors (i+1) j acc
      else
        let payment := round2 (min dk.2 ck.2)
        if payment < 1/100 then
          if dk.2 ≤ ck.2 then spLoop fuel debtors creditors (i+1) j acc
          else spLoop fuel debtors creditors i (j+1) acc
        else
          let nd := round2 (dk.2 - payment)
          let nc := round2 (ck.2 - payment)
          spLoop fuel (debtors.set i (dk.1, nd)) (creditors.set j (ck.1, nc))
            (if nd = 0 then i+1 else i) (if nc = 0 then j+1 else j)
            (acc ++ [(dk.1, ck.1, payment)])
    else some acc

/-- `suggest_payments(balances)` as a fueled run of the loop. -/
def suggestRun (balances : List (String × ℚ)) : Option (List (String × String × ℚ)) :=
  let creditors := sortDesc (creditorsOf balances)
  let debtors := sortDesc (debtorsOf balances)
  spLoop (debtors.length + creditors.length + 1) debtors creditors 0 0 []

/-- `suggest_payments(balances)`.  The fuel provably suffices
(`suggestRun_isSome` below), so the default is never taken. -/
def suggest_payments (balances : List (String × ℚ)) : List (String × String × ℚ) :=
  (suggestRun balances).getD []

/-- Net effect of applying a settlement plan to person `p`'s balance:
each `(debtor, creditor, amount)` adds `amount` to the debtor and subtracts
`amount` from the creditor. -/
def applyNet (plan : List (String × String × ℚ)) (p : String) : ℚ :=
  (plan.map (fun t => (if t.1 = p then t.2.2 else 0) - (if t.2.1 = p then t.2.2 else 0))).sum

/-- Value of person `p` in a balance sheet (association list). -/
def alookupQ : List (String × ℚ) → String → Option ℚ
  | [], _ => none
  | (k', v) :: rest, k => if k' = k then some v else alookupQ rest k

/-- Balance of `p` in the sheet, `0` if absent. -/
def balLookup (b : List (String × ℚ)) (p : String) : ℚ := (alookupQ b p).getD 0

/-- The raw `amount` of a record as `calculate_balances` reads it
(`float(e.get("amount", 0) or 0)`, defaulting on failure). -/
def recAmount : PyVal → ℚ
  | .vdict d => (pyFloat (pyOr (pyGet d "amount" (.vnum 0)) (.vnum 0))).getD 0
  | _ => 0

/-- The `participants` field of a record as the core reads it. -/
def recParts : PyVal → PyVal
  | .vdict d => pyGet d "participants" (.vlist [])
  | _ => .vlist []

/-- The custom-split shares of a record, as `calculate_balances` reads them. -/
def sharesOf (e : PyVal) : List (String × ℚ) :=
  match recParts e with
  | .vdict pd => pd.map (fun kv => (kv.1, (pyFloat kv.2).getD 0))
  | _ => []

/-- A sanitized record whose single-record contribution to the grand total of
balances is at most 0.01: a nonempty equal split (contribution exactly 0), an
empty split with zero amount, or custom shares summing to within 0.01 of the
amount. -/
def goodRec (e : PyVal) : Prop :=
  match recParts e with
  | .vlist l => l ≠ [] ∨ recAmount e = 0
  | .vdict _ => |recAmount e - ((sharesOf e).map (fun kv => kv.2)).sum| ≤ 1/100
  | _ => False

/-- The participants of the record can be processed without raising. -/
def partsOK (d : List (String × PyVal)) : Bool :=
  match pyGet d "participants" (.vlist []) with
  | .vlist l => (listClean l).isSome
  | _ => true

/-- The record's `participants` field is not a custom-split mapping. -/
def noDictParts (e : PyVal) : Prop :=
  match e with
  | .vdict d =>
    match pyGet d "participants" (.vlist []) with
    | .vdict _ => False
    | _ => True
  | _ => True

/-- An exact multiple of 0.01, the form every balance produced by
`calculate_balances` has. -/
def isCent (q : ℚ) : Prop := ∃ k : ℤ, q = k / 100

/-- Grand total of a balance sheet. -/
def balSum (b : List (String × ℚ)) : ℚ := (b.map (fun kv => kv.2)).sum

/-- Total amount still to process from cursor position `i` on. -/
def totFrom (l : List (String × ℚ)) (i : ℕ) : ℚ :=
  ((l.drop i).map (fun kv => kv.2)).sum

/-- Amount still to process for person `p` from cursor position `i` on. -/
def perRem (l : List (String × ℚ)) (i : ℕ) (p : String) : ℚ :=
  ((l.drop i).map (fun kv => if kv.1 = p then kv.2 else 0)).sum

/-! ### A heap model for the mutation claims

Python records are mutable objects on a heap.  `Store` is the heap: a list of
cells indexed by address, with allocation modelled as appending.  Numbers,
strings and `None` are immutable; lists and dicts hold addresses.  The
mutational versions of `sanitize_expense`, `sanitize_all` and
`calculate_balances` below mirror the source line by line at this level:
`e.copy()` allocates a shallow copy, `e["payer"] = ...` and
`e["participants"] = ...` write to the copy's cell, and the cleaned
participants structures are freshly allocated.  Reads go through a fuelled
read-out (`readAddr`); on the cyclic stores Python itself could only produce
by aliasing tricks the read-out fails and the record is treated as raising,
which cannot affect where writes go. -/

inductive HVal where
  | hnum (q : ℚ)
  | hstr (s : String)
  | hnone
  | hlist (elems : List ℕ)
  | hdict (entries : List (String × ℕ))

abbrev Store := List HVal

/-- Association lookup on a heap dict's entries. -/
def alookupN : List (String × ℕ) → String → Option ℕ
  | [], _ => none
  | (k', v) :: rest, k => if k' = k then some v else alookupN rest k

/-- `d[k] = v` on a heap dict's entries: overwrite in place, else append. -/
def dictSetN : List (String × ℕ) → String → ℕ → List (String × ℕ)
  | [], k, v => [(k, v)]
  | (k', v') :: rest, k, v => if k' = k then (k, v) :: rest else (k', v') :: dictSetN rest k v

/-- One level of reading a heap value, delegating sub-reads to `rd`. -/
def readCell (st : Store) (rd : ℕ → Option PyVal) (a : ℕ) : Option PyVal :=
  match st[a]? with
  | some (HVal.hnum q) => some (PyVal.vnum q)
  | some (HVal.hstr s) => some (PyVal.vstr s)
  | some HVal.hnone => some PyVal.vnone
  | some (HVal.hlist es) => (es.mapM rd).map PyVal.vlist
  | some (HVal.hdict d) =>
    (d.mapM (fun kv => (rd kv.2).map (fun v => (kv.1, v)))).map PyVal.vdict
  | none => none

/-- Fuelled read-out of the value stored at an address. -/
def readVal (st : Store) : ℕ → ℕ → Option PyVal
  | 0 => fun _ => none
  | Nat.succ fuel => readCell st (readVal st fuel)

/-- Read the value at an address; in an acyclic store no reference chain is
longer than the store itself, so `length + 1` fuel always suffices. -/
def readAddr (st : Store) (a : ℕ) : Option PyVal :=
  readVal st (st.length + 1) a

/-- `sanitize_expense(e.copy())` on the heap, for the record at address `a`.
Returns the new store and the copy's address, or `none` for an exception
(non-dict record, `float` failure on a truthy non-numeric amount, or a truthy
non-string participants entry).  All writes target the freshly allocated
copy; the cleaned `participants` value is freshly allocated. -/
def sanitize_expense_mut (st : Store) (a : ℕ) : Store × Option ℕ :=
  match st[a]? with
  | some (HVal.hdict d) =>
    let ca := st.length
    let st₁ := st ++ [HVal.hdict d]
    let payer := pyStrip (pyStr (match alookupN d "payer" with
      | some pa => (readAddr st₁ pa).getD PyVal.vnone
      | none => PyVal.vstr ""))
    match pyFloat (pyOr (match alookupN d "amount" with
        | some aa => (readAddr st₁ aa).getD PyVal.vnone
        | none => PyVal.vnum 0) (PyVal.vnum 0)) with
    | none => (st₁, none)
    | some amount =>
      let partsVal := match alookupN d "participants" with
        | some pp => (readAddr st₁ pp).getD PyVal.vnone
        | none => PyVal.vlist []
      let payerAddr := st₁.length
      let st₂ := st₁ ++ [HVal.hstr payer]
      let d₁ := dictSetN d "payer" payerAddr
      let st₃ := st₂.set ca (HVal.hdict d₁)
      match partsVal with
      | PyVal.vlist l =>
        match listClean l with
        | none => (st₃, none)
        | some cleaned =>
          let la := st₃.length + cleaned.length
          let st₄ := st₃ ++ cleaned.map HVal.hstr ++
            [HVal.hlist (List.range' st₃.length cleaned.length)]
          (st₄.set ca (HVal.hdict (dictSetN d₁ "participants" la)), some ca)
      | PyVal.vdict pd =>
        let fixed := fixShares amount (cleanShares pd)
        let da := st₃.length + fixed.length
        let st₄ := st₃ ++ fixed.map (fun kv => HVal.hnum kv.2) ++
          [HVal.hdict (fixed.enum.map (fun ikv => (ikv.2.1, st₃.length + ikv.1)))]
        (st₄.set ca (HVal.hdict (dictSetN d₁ "participants" da)), some ca)
      | _ =>
        let st₄ := st₃ ++ [HVal.hlist []]
        (st₄.set ca (HVal.hdict (dictSetN d₁ "participants" st₃.length)), some ca)
  | some (HVal.hlist l) => (st ++ [HVal.hlist l], none)
  | _ => (st, none)

/-- `sanitize_all(expenses)` on the heap: sanitize a copy of each record in
order, skipping the ones that raise. -/
def sanitize_all_mut : Store → List ℕ → Store × List ℕ
  | st, [] => (st, [])
  | st, a :: rest =>
    let r := sanitize_expense_mut st a
    let r2 := sanitize_all_mut r.1 rest
    match r.2 with
    | some ca => (r2.1, ca :: r2.2)
    | none => (r2.1, r2.2)

/-- The pure tail of `calculate_balances` once the records are sanitized. -/
def balancesFromSanitized (cleaned : List PyVal) : List (String × ℚ) :=
  let people := get_all_people cleaned
  let b := cleaned.foldl applyExpense (people.map (fun p => (p, (0:ℚ))))
  b.map (fun kv => (kv.1, roundBal kv.2))

/-- `calculate_balances(expenses)` on the heap: sanitize on the heap, then read
the sanitized records and compute the (immutable) balances value.  The
`balances` dict itself is a fresh object, modelled as a pure value. -/
def calculate_balances_mut (st : Store) (recs : List ℕ) : Store × List (String × ℚ) :=
  let r := sanitize_all_mut st recs
  (r.1, balancesFromSanitized (r.2.map (fun a => (readAddr r.1 a).getD PyVal.vnone)))

/-- `st` extends `base`: every cell of `base` is still there, unchanged. -/
def StoreExt (base st : Store) : Prop :=
  base.length ≤ st.length ∧ ∀ i < base.length, st[i]? = base[i]?

/-! ### Basic facts about `round2` and cent multiples -/

theorem round2_val (q : ℚ) (k : ℤ) (h₁ : (k:ℚ) ≤ q * 100 + 1/2) (h₂ : q * 100 + 1/2 < k + 1) :
    round2 q = (k:ℚ)/100 := by
  have : round (q * 100) = k := by
    rw [round_eq]
    exact Int.floor_eq_iff.mpr ⟨h₁, h₂⟩
  rw [round2, this]

theorem isCent_round2 (q : ℚ) : isCent (round2 q) := ⟨round (q * 100), rfl⟩

theorem round2_cent {q : ℚ} (h : isCent q) : round2 q = q := by
  obtain ⟨k, rfl⟩ := h
  have h100 : ((k:ℚ)/100) * 100 = (k:ℚ) := by field_simp
  rw [round2, h100, round_intCast]

theorem round2_zero : round2 0 = 0 := by
  have := round2_cent (q := 0) ⟨0, by norm_num⟩
  simpa using this

theorem abs_round2_sub_le (q : ℚ) : |round2 q - q| ≤ 1/200 := by
  have h := abs_sub_round (q * 100)
  rw [round2]
  rw [abs_sub_comm] at h
  have : (round (q * 100) : ℚ)/100 - q = ((round (q * 100) : ℚ) - q * 100)/100 := by ring
  rw [this, abs_div]
  rw [show |(100:ℚ)| = 100 by norm_num]
  linarith [h]

theorem round_le_half (x : ℚ) : (round x : ℚ) ≤ x + 1/2 := by
  rw [round_eq]
  exact Int.floor_le _

theorem lt_round_half (x : ℚ) : x - 1/2 < (round x : ℚ) := by
  have := Int.lt_floor_add_one (x + 1/2)
  rw [round_eq]
  linarith

/-- After paying `round2 d` against a debt `d`, the rounded remainder is
exactly zero: the key fact behind cursor advancement in the settlement loop. -/
theorem round2_sub_round2 (q : ℚ) : round2 (q - round2 q) = 0 := by
  have hle := round_le_half (q * 100)
  have hlt := lt_round_half (q * 100)
  have harg : (q - round2 q) * 100 = q * 100 - (round (q * 100) : ℚ) := by
    rw [round2]; ring
  rw [round2, harg]
  have h0 : round (q * 100 - (round (q * 100) : ℚ)) = 0 := by
    rw [round_eq_zero_iff, Set.mem_Ico]
    constructor <;> linarith
  rw [h0]
  norm_num

theorem isCent.neg {q : ℚ} (h : isCent q) : isCent (-q) := by
  obtain ⟨k, rfl⟩ := h
  exact ⟨-k, by rw [Int.cast_neg, neg_div]⟩

theorem isCent.add {p q : ℚ} (hp : isCent p) (hq : isCent q) : isCent (p + q) := by
  obtain ⟨k, rfl⟩ := hp
  obtain ⟨m, rfl⟩ := hq
  exact ⟨k + m, by push_cast; ring⟩

theorem isCent.sub {p q : ℚ} (hp : isCent p) (hq : isCent q) : isCent (p - q) := by
  obtain ⟨k, rfl⟩ := hp
  obtain ⟨m, rfl⟩ := hq
  exact ⟨k - m, by push_cast; ring⟩

theorem isCent.min {p q : ℚ} (hp : isCent p) (hq : isCent q) : isCent (min p q) := by
  rcases le_total p q with h | h
  · rwa [min_eq_left h]
  · rwa [min_eq_right h]

theorem isCent.le_of_pos {q : ℚ} (h : isCent q) (hq : 0 < q) : 1/100 ≤ q := by
  obtain ⟨k, rfl⟩ := h
  have hk : (0:ℚ) < (k:ℚ) := by linarith
  have hk' : 0 < k := by exact_mod_cast hk
  have h1 : 1 ≤ k := hk'
  have h1' : (1:ℚ) ≤ (k:ℚ) := by exact_mod_cast h1
  linarith

theorem isCent.eq_zero_of_abs_lt {q : ℚ} (h : isCent q) (hq : |q| < 1/100) : q = 0 := by
  obtain ⟨k, rfl⟩ := h
  have : |(k:ℚ)| < 1 := by
    rw [abs_div, show |(100:ℚ)| = 100 by norm_num] at hq
    linarith
  have hk : k = 0 := by
    have := abs_lt.mp this
    have h1 : (-1:ℚ) < (k:ℚ) := this.1
    have h2 : (k:ℚ) < 1 := this.2
    have : -1 < k ∧ k < 1 := ⟨by exact_mod_cast h1, by exact_mod_cast h2⟩
    omega
  rw [hk]
  norm_num

/-! ### String stripping is idempotent -/

theorem stripCore_idem (l : List Char) :
    List.rdropWhile isSpace (List.dropWhile isSpace
      (List.rdropWhile isSpace (List.dropWhile isSpace l))) =
    List.rdropWhile isSpace (List.dropWhile isSpace l) := by
  have hdrop : List.dropWhile isSpace (List.rdropWhile isSpace (List.dropWhile isSpace l)) =
      List.rdropWhile isSpace (List.dropWhile isSpace l) := by
    rw [List.dropWhile_eq_self_iff]
    intro hl
    have hpref := List.rdropWhile_prefix (p := isSpace) (l := List.dropWhile isSpace l)
    have hm : 0 < (List.dropWhile isSpace l).length :=
      Nat.lt_of_lt_of_le hl hpref.length_le
    have hget : (List.dropWhile isSpace l).get ⟨0, hm⟩ =
        (List.rdropWhile isSpace (List.dropWhile isSpace l)).get ⟨0, hl⟩ := by
      simp only [List.get_eq_getElem]
      exact (hpref.getElem hl).symm
    have := List.dropWhile_get_zero_not isSpace l hm
    rw [hget] at this
    exact this
  rw [hdrop, List.rdropWhile_idempotent]

theorem pyStrip_idem (s : String) : pyStrip (pyStrip s) = pyStrip s :=
  congrArg String.mk (stripCore_idem s.data)

/-! ### Association-list lemmas for the modelled Python dicts -/

theorem alookup_dictSet_self (d : List (String × PyVal)) (k : String) (v : PyVal) :
    alookup (dictSet d k v) k = some v := by
  induction d with
  | nil => simp [dictSet, alookup]
  | cons kv rest ih =>
    obtain ⟨k', v'⟩ := kv
    by_cases h : k' = k
    · simp [dictSet, h, alookup]
    · simp [dictSet, h, alookup, ih]

theorem alookup_dictSet_ne (d : List (String × PyVal)) {k k' : String} (v : PyVal)
    (h : k ≠ k') : alookup (dictSet d k' v) k = alookup d k := by
  have h' : ¬ (k' = k) := fun hc => h hc.symm
  induction d with
  | nil => simp [dictSet, alookup, h']
  | cons kv rest ih =>
    obtain ⟨k₀, v₀⟩ := kv
    by_cases h0 : k₀ = k'
    · subst h0
      simp only [dictSet, if_pos rfl, alookup]
      rw [if_neg h', if_neg h']
    · simp only [dictSet, if_neg h0, alookup]
      by_cases h1 : k₀ = k
      · rw [if_pos h1, if_pos h1]
      · rw [if_neg h1, if_neg h1, ih]

theorem dictSet_eq_self {d : List (String × PyVal)} {k : String} {v : PyVal}
    (h : alookup d k = some v) : dictSet d k v = d := by
  induction d with
  | nil => simp [alookup] at h
  | cons kv rest ih =>
    obtain ⟨k₀, v₀⟩ := kv
    by_cases h0 : k₀ = k
    · subst h0
      simp [alookup] at h
      simp [dictSet, h]
    · simp [alookup, h0] at h
      simp [dictSet, h0, ih h]

/-! ### C8: a record that raises is dropped, the rest of the batch continues -/

/-- C8: `sanitize_all` never fails as a whole: a record whose sanitization
raises is dropped from the output, the surrounding records are processed as
usual, and the output keeps the input order. -/
theorem sanitize_all_skips_bad (l₁ : List PyVal) (e : PyVal) (l₂ : List PyVal)
    (h : sanitize_expense e = none) :
    sanitize_all (l₁ ++ e :: l₂) = sanitize_all l₁ ++ sanitize_all l₂ := by
  simp [sanitize_all, List.filterMap_append, List.filterMap_cons, h]

/-- Witness for C8 at a concrete batch: the integer record `3` (no `.copy`)
raises and is dropped, its neighbours survive. -/
theorem sanitize_all_skips_bad_witness :
    sanitize_expense (PyVal.vnum 3) = none ∧
    sanitize_all [PyVal.vdict [("payer", PyVal.vstr "a"), ("participants", PyVal.vlist [])],
        PyVal.vnum 3, PyVal.vdict [("payer", PyVal.vstr "b"), ("participants", PyVal.vlist [])]] =
      sanitize_all [PyVal.vdict [("payer", PyVal.vstr "a"), ("participants", PyVal.vlist [])]] ++
      sanitize_all [PyVal.vdict [("payer", PyVal.vstr "b"), ("participants", PyVal.vlist [])]] :=
  ⟨rfl, sanitize_all_skips_bad [PyVal.vdict [("payer", PyVal.vstr "a"), ("participants", PyVal.vlist [])]]
    (PyVal.vnum 3) [PyVal.vdict [("payer", PyVal.vstr "b"), ("participants", PyVal.vlist [])]] rfl⟩

/-! ### C7: missing/null amounts are kept as 0, but a truthy non-numeric
amount makes `float` raise and the whole record is dropped -/

/-- Counterexample to C7 as stated: a record whose `amount` is the non-numeric
string `"abc"` is *lost from the batch* (`float("abc")` raises and
`sanitize_all` drops the record), rather than being kept with amount 0. -/
theorem nonnumeric_amount_drops_record :
    sanitize_all [PyVal.vdict [("payer", PyVal.vstr "p"), ("amount", PyVal.vstr "abc"),
      ("participants", PyVal.vlist [])]] = [] := by
  have h : sanitize_expense (PyVal.vdict [("payer", PyVal.vstr "p"),
      ("amount", PyVal.vstr "abc"), ("participants", PyVal.vlist [])]) = none :=
    Option.isNone_iff_eq_none.mp (by decide)
  simp [sanitize_all, h]

theorem alookup_amount_sanitized (d : List (String × PyVal)) (P X : PyVal) :
    alookup (dictSet (dictSet d "payer" P) "participants" X) "amount" =
      alookup d "amount" := by
  rw [alookup_dictSet_ne _ _ (by decide), alookup_dictSet_ne _ _ (by decide)]

theorem recAmount_sanitized (d : List (String × PyVal)) (P X : PyVal) :
    recAmount (.vdict (dictSet (dictSet d "payer" P) "participants" X)) =
      recAmount (.vdict d) := by
  simp [recAmount, pyGet, alookup_amount_sanitized]

/-- C7 (amended): a record whose `amount` is missing, `None`, or otherwise
falsy is sanitized with the amount treated as `0`, and the record is kept
whenever its participants can be processed; a truthy non-numeric amount
instead drops the whole record (see `nonnumeric_amount_drops_record`). -/
theorem falsy_amount_treated_zero (d : List (String × PyVal))
    (hfal : truthy (pyGet d "amount" (.vnum 0)) = false)
    (hp : partsOK d = true) :
    ∃ e', sanitize_expense (.vdict d) = some e' ∧ recAmount e' = 0 := by
  have hflt : pyFloat (pyOr (pyGet d "amount" (.vnum 0)) (.vnum 0)) = some 0 := by
    simp [pyOr, hfal, pyFloat]
  have hz : ∀ X : PyVal,
      recAmount (.vdict (dictSet (dictSet d "payer"
        (.vstr (pyStrip (pyStr (pyGet d "payer" (.vstr "")))))) "participants" X)) = 0 := by
    intro X
    rw [recAmount_sanitized]
    simp [recAmount, hflt]
  rcases hA : pyGet d "participants" (.vlist []) with s | q | _ | l | pd
  · exact ⟨_, by simp [sanitize_expense, hflt, hA], hz (.vlist [])⟩
  · exact ⟨_, by simp [sanitize_expense, hflt, hA], hz (.vlist [])⟩
  · exact ⟨_, by simp [sanitize_expense, hflt, hA], hz (.vlist [])⟩
  · rw [partsOK, hA] at hp
    obtain ⟨cleaned, hc⟩ := Option.isSome_iff_exists.mp hp
    exact ⟨_, by simp [sanitize_expense, hflt, hA, hc],
      hz (.vlist (cleaned.map .vstr))⟩
  · exact ⟨_, by simp [sanitize_expense, hflt, hA],
      hz (.vdict (encodeShares (fixShares 0 (cleanShares pd))))⟩

/-- Witness for C7 (amended): `amount = None` is treated as 0 and the record
is kept. -/
theorem falsy_amount_treated_zero_witness :
    ∃ e', sanitize_expense (.vdict [("payer", PyVal.vstr "p"), ("amount", PyVal.vnone),
      ("participants", PyVal.vlist [PyVal.vstr "a"])]) = some e' ∧ recAmount e' = 0 :=
  falsy_amount_treated_zero _ (by decide) (by decide)

/-! ### C3: sums of normalised custom-split shares -/

theorem sum_updateHead (scaled : List (String × ℚ)) (diff : ℚ)
    (hc : ∀ kv ∈ scaled, isCent kv.2) (hdc : isCent diff) (hne : scaled ≠ []) :
    ((updateHead scaled diff).map (fun kv => kv.2)).sum =
      (scaled.map (fun kv => kv.2)).sum + diff := by
  cases scaled with
  | nil => exact absurd rfl hne
  | cons kv rest =>
    simp only [updateHead, List.map_cons, List.sum_cons]
    rw [round2_cent ((hc kv (by simp)).add hdc)]
    ring

theorem fixShares_sum (a : ℚ) (cleaned : List (String × ℚ))
    (hpos : 0 < (cleaned.map (fun kv => kv.2)).sum) :
    |((fixShares a cleaned).map (fun kv => kv.2)).sum - a| ≤ 1/100 := by
  have hne : (cleaned.map (fun kv => kv.2)).sum ≠ 0 := ne_of_gt hpos
  have hclne : cleaned ≠ [] := by
    intro hc
    rw [hc] at hpos
    simp at hpos
  simp only [fixShares]
  rw [if_neg (fun hc => hne hc.1)]
  by_cases hbig : 1/100 < |(cleaned.map (fun kv => kv.2)).sum - a|
  · rw [if_pos ⟨hbig, hpos⟩]
    set total := (cleaned.map (fun kv => kv.2)).sum with htot
    set scaled := cleaned.map (fun kv => (kv.1, round2 (kv.2 * (a / total)))) with hscaled
    set ssum := (scaled.map (fun kv => kv.2)).sum with hssum
    set diff := round2 (a - ssum) with hdiff
    have hdcent : isCent diff := isCent_round2 _
    have hdnear : |diff - (a - ssum)| ≤ 1/200 := abs_round2_sub_le _
    have hscne : scaled ≠ [] := by
      rw [hscaled]
      simpa using hclne
    have hsccent : ∀ kv ∈ scaled, isCent kv.2 := by
      intro kv hkv
      rw [hscaled] at hkv
      obtain ⟨kv₀, _, rfl⟩ := List.mem_map.mp hkv
      exact isCent_round2 _
    by_cases hd : 1/100 ≤ |diff|
    · rw [if_pos hd, sum_updateHead scaled diff hsccent hdcent hscne]
      calc |ssum + diff - a| = |diff - (a - ssum)| := by ring_nf
      _ ≤ 1/200 := hdnear
      _ ≤ 1/100 := by norm_num
    · rw [if_neg hd]
      push_neg at hd
      have hz : diff = 0 := hdcent.eq_zero_of_abs_lt hd
      rw [hz] at hdnear
      calc |ssum - a| = |0 - (a - ssum)| := by ring_nf
      _ ≤ 1/200 := hdnear
      _ ≤ 1/100 := by norm_num
  · rw [if_neg (fun hc => hbig hc.1)]
    push_neg at hbig
    exact hbig

theorem sharesOf_encode (D : List (String × PyVal)) (l : List (String × ℚ)) :
    sharesOf (.vdict (dictSet D "participants" (.vdict (encodeShares l)))) = l := by
  simp only [sharesOf, recParts, pyGet, alookup_dictSet_self, Option.getD_some,
    encodeShares, List.map_map]
  have hcomp : ((fun kv : String × PyVal => (kv.1, (pyFloat kv.2).getD 0)) ∘
      (fun kv : String × ℚ => (kv.1, PyVal.vnum kv.2))) = id := by
    funext kv
    simp [pyFloat]
  rw [hcomp, List.map_id]

/-- C3 (amended): for a record with dict participants that sanitizes
successfully, *whenever the cleaned shares have positive sum*, the output
shares sum to within 0.01 of the record's amount.  (The non-negativity half
of the claim, and the unconditional sum bound, are refuted by
`custom_split_negative_share_kept`.) -/
theorem custom_split_sum_close (d pd : List (String × PyVal)) (e' : PyVal)
    (hpd : pyGet d "participants" (.vlist []) = .vdict pd)
    (hsan : sanitize_expense (.vdict d) = some e')
    (hpos : 0 < ((cleanShares pd).map (fun kv => kv.2)).sum) :
    |((sharesOf e').map (fun kv => kv.2)).sum - recAmount (.vdict d)| ≤ 1/100 := by
  rcases hamt : pyFloat (pyOr (pyGet d "amount" (.vnum 0)) (.vnum 0)) with _ | a
  · rw [sanitize_expense, hamt] at hsan
    simp at hsan
  · rw [sanitize_expense, hamt, hpd] at hsan
    simp only [Option.some.injEq] at hsan
    rw [← hsan, sharesOf_encode]
    have hra : recAmount (.vdict d) = a := by
      simp [recAmount, hamt]
    rw [hra]
    exact fixShares_sum a (cleanShares pd) hpos

/-- Counterexample to C3 as stated: a custom split `{a: -5}` with amount 10
survives sanitization untouched — the share is negative and the shares sum
to -5, which is not within 0.01 of the amount 10. -/
theorem custom_split_negative_share_kept :
    ∃ e', sanitize_expense (.vdict [("payer", PyVal.vstr "p"), ("amount", PyVal.vnum 10),
        ("participants", PyVal.vdict [("a", PyVal.vnum (-5))])]) = some e' ∧
      sharesOf e' = [("a", (-5:ℚ))] ∧
      recAmount (.vdict [("payer", PyVal.vstr "p"), ("amount", PyVal.vnum 10),
        ("participants", PyVal.vdict [("a", PyVal.vnum (-5))])]) = 10 ∧
      (-5:ℚ) < 0 ∧ 1/100 < |(10:ℚ) - (-5)| := by
  have hsp : pyStrip "p" = "p" := by decide
  have hsa : pyStrip "a" = "a" := by decide
  refine ⟨.vdict [("payer", PyVal.vstr "p"), ("amount", PyVal.vnum 10),
    ("participants", PyVal.vdict [("a", PyVal.vnum (-5))])], ?_, ?_, ?_, by norm_num, by norm_num⟩
  · norm_num +decide [sanitize_expense, pyGet, alookup, pyOr, truthy, pyFloat, pyStr, hsp, hsa,
      cleanShares, dictInsertQ, fixShares, encodeShares, dictSet, List.foldl]
  · norm_num +decide [sharesOf, recParts, pyGet, alookup, pyFloat]
  · norm_num +decide [recAmount, pyGet, alookup, pyOr, truthy, pyFloat]

/-- Witness for C3 (amended) at the spec's own scenario 2:
`{Bob: 40, Carol: 40}` with amount 100 rescales to `{Bob: 50, Carol: 50}`. -/
theorem custom_split_sum_close_witness :
    ∃ e', sanitize_expense (.vdict [("payer", PyVal.vstr "Alice"), ("amount", PyVal.vnum 100),
        ("participants", PyVal.vdict [("Bob", PyVal.vnum 40), ("Carol", PyVal.vnum 40)])]) =
        some e' ∧
      |((sharesOf e').map (fun kv => kv.2)).sum -
        recAmount (.vdict [("payer", PyVal.vstr "Alice"), ("amount", PyVal.vnum 100),
          ("participants", PyVal.vdict [("Bob", PyVal.vnum 40), ("Carol", PyVal.vnum 40)])])| ≤
        1/100 := by
  have hsA : pyStrip "Alice" = "Alice" := by decide
  have hsB : pyStrip "Bob" = "Bob" := by decide
  have hsC : pyStrip "Carol" = "Carol" := by decide
  have hr50 : round2 (50:ℚ) = 50 := round2_cent ⟨5000, by norm_num⟩
  have hr0 : round2 (0:ℚ) = 0 := round2_zero
  have hsan : sanitize_expense (.vdict [("payer", PyVal.vstr "Alice"),
      ("amount", PyVal.vnum 100),
      ("participants", PyVal.vdict [("Bob", PyVal.vnum 40), ("Carol", PyVal.vnum 40)])]) =
      some (.vdict [("payer", PyVal.vstr "Alice"), ("amount", PyVal.vnum 100),
        ("participants", PyVal.vdict [("Bob", PyVal.vnum 50), ("Carol", PyVal.vnum 50)])]) := by
    norm_num +decide [sanitize_expense, pyGet, alookup, pyOr, truthy, pyFloat, pyStr, hsA, hsB, hsC,
      cleanShares, dictInsertQ, fixShares, encodeShares, dictSet, List.foldl, hr50, hr0]
  refine ⟨_, hsan, custom_split_sum_close _ [("Bob", PyVal.vnum 40), ("Carol", PyVal.vnum 40)]
    _ (by norm_num +decide [pyGet, alookup]) hsan ?_⟩
  norm_num +decide [cleanShares, dictInsertQ, pyFloat, hsB, hsC, List.foldl]

/-! ### C4: sanitization is idempotent only away from custom splits -/

theorem listClean_sound {l : List PyVal} {r : List String} (h : listClean l = some r) :
    ∀ s ∈ r, pyStrip s = s ∧ s ≠ "" := by
  induction l generalizing r with
  | nil =>
    simp only [listClean, Option.some.injEq] at h
    subst h
    simp
  | cons p ps ih =>
    rcases p with s | q | _ | pl | pdd
    case vstr =>
      rw [listClean] at h
      by_cases hc : truthy (PyVal.vstr s) = true ∧ pyStrip (pyStr (PyVal.vstr s)) ≠ ""
      · rw [if_pos hc] at h
        obtain ⟨r', hr', rfl⟩ := Option.map_eq_some'.mp h
        intro t ht
        rcases List.mem_cons.mp ht with rfl | ht'
        · exact ⟨pyStrip_idem s, by simpa [pyStr] using hc.2⟩
        · exact ih hr' t ht'
      · rw [if_neg hc] at h
        exact ih h
    case vnum =>
      have he : listClean (PyVal.vnum q :: ps) =
          if truthy (PyVal.vnum q) = true ∧ pyStrip (pyStr (PyVal.vnum q)) ≠ "" then none
          else listClean ps := rfl
      rw [he] at h
      split at h
      · exact absurd h (by simp)
      · exact ih h
    case vnone =>
      have he : listClean (PyVal.vnone :: ps) =
          if truthy PyVal.vnone = true ∧ pyStrip (pyStr PyVal.vnone) ≠ "" then none
          else listClean ps := rfl
      rw [he] at h
      split at h
      · exact absurd h (by simp)
      · exact ih h
    case vlist =>
      have he : listClean (PyVal.vlist pl :: ps) =
          if truthy (PyVal.vlist pl) = true ∧ pyStrip (pyStr (PyVal.vlist pl)) ≠ "" then none
          else listClean ps := rfl
      rw [he] at h
      split at h
      · exact absurd h (by simp)
      · exact ih h
    case vdict =>
      have he : listClean (PyVal.vdict pdd :: ps) =
          if truthy (PyVal.vdict pdd) = true ∧ pyStrip (pyStr (PyVal.vdict pdd)) ≠ "" then none
          else listClean ps := rfl
      rw [he] at h
      split at h
      · exact absurd h (by simp)
      · exact ih h

theorem listClean_of_clean {cleaned : List String}
    (h : ∀ s ∈ cleaned, pyStrip s = s ∧ s ≠ "") :
    listClean (cleaned.map PyVal.vstr) = some cleaned := by
  induction cleaned with
  | nil => simp [listClean]
  | cons s rest ih =>
    obtain ⟨hs, hne⟩ := h s (by simp)
    have hemp : s.isEmpty = false := by
      rw [Bool.eq_false_iff]
      simpa [String.isEmpty_iff] using hne
    have hcond : truthy (PyVal.vstr s) = true ∧ pyStrip (pyStr (PyVal.vstr s)) ≠ "" := by
      refine ⟨?_, by simpa [pyStr, hs] using hne⟩
      simp [truthy, hemp]
    rw [List.map_cons, listClean, if_pos hcond, ih (fun t ht => h t (by simp [ht]))]
    simp [pyStr, hs]

theorem alookup_payer_sanitized (d : List (String × PyVal)) (P X : PyVal) :
    alookup (dictSet (dictSet d "payer" P) "participants" X) "payer" = some P := by
  rw [alookup_dictSet_ne _ _ (by decide), alookup_dictSet_self]

/-- Sanitizing a sanitized record (with already-cleaned list participants)
returns it unchanged. -/
theorem sanitize_output_fixed (d : List (String × PyVal)) (a : ℚ)
    (cleaned : List String)
    (hamt : pyFloat (pyOr (pyGet d "amount" (.vnum 0)) (.vnum 0)) = some a)
    (hcl : ∀ s ∈ cleaned, pyStrip s = s ∧ s ≠ "") :
    sanitize_expense (.vdict (dictSet (dictSet d "payer"
        (.vstr (pyStrip (pyStr (pyGet d "payer" (.vstr "")))))) "participants"
        (.vlist (cleaned.map PyVal.vstr)))) =
      some (.vdict (dictSet (dictSet d "payer"
        (.vstr (pyStrip (pyStr (pyGet d "payer" (.vstr "")))))) "participants"
        (.vlist (cleaned.map PyVal.vstr)))) := by
  set P := pyStrip (pyStr (pyGet d "payer" (.vstr ""))) with hP
  set X : PyVal := .vlist (cleaned.map PyVal.vstr) with hX
  set d₂ := dictSet (dictSet d "payer" (.vstr P)) "participants" X with hd₂
  have h1 : alookup d₂ "payer" = some (.vstr P) := by
    rw [hd₂, alookup_payer_sanitized]
  have h2 : alookup d₂ "participants" = some X := by
    rw [hd₂, alookup_dictSet_self]
  have f2 : pyGet d₂ "participants" (.vlist []) = X := by
    rw [pyGet, h2]
    rfl
  have f3 : pyGet d₂ "amount" (.vnum 0) = pyGet d "amount" (.vnum 0) := by
    rw [pyGet, pyGet, hd₂, alookup_amount_sanitized]
  have hpay : pyStrip (pyStr (pyGet d₂ "payer" (.vstr ""))) = P := by
    rw [pyGet, h1]
    show pyStrip (pyStr (.vstr P)) = P
    rw [pyStr, hP, pyStrip_idem]
  simp only [sanitize_expense, f3, hamt, hpay, f2, hX, listClean_of_clean hcl]
  rw [← hX, dictSet_eq_self h1, dictSet_eq_self h2]

/-- A record with non-dict participants reaches a fixed point after one
sanitization. -/
theorem sanitize_expense_idem {e e' : PyVal} (hnd : noDictParts e)
    (h : sanitize_expense e = some e') : sanitize_expense e' = some e' := by
  rcases e with s | q | _ | l | d
  · simp [sanitize_expense] at h
  · simp [sanitize_expense] at h
  · simp [sanitize_expense] at h
  · simp [sanitize_expense] at h
  · rcases hamt : pyFloat (pyOr (pyGet d "amount" (.vnum 0)) (.vnum 0)) with _ | a
    · rw [sanitize_expense] at h
      simp [hamt] at h
    · rcases hpp : pyGet d "participants" (.vlist []) with s | q | _ | l | pd
      · simp only [sanitize_expense, hamt, hpp, Option.some.injEq] at h
        subst h
        exact sanitize_output_fixed d a [] hamt (by simp)
      · simp only [sanitize_expense, hamt, hpp, Option.some.injEq] at h
        subst h
        exact sanitize_output_fixed d a [] hamt (by simp)
      · simp only [sanitize_expense, hamt, hpp, Option.some.injEq] at h
        subst h
        exact sanitize_output_fixed d a [] hamt (by simp)
      · rcases hlc : listClean l with _ | cleaned
        · simp [sanitize_expense, hamt, hpp, hlc] at h
        · simp only [sanitize_expense, hamt, hpp, hlc, Option.some.injEq] at h
          subst h
          exact sanitize_output_fixed d a cleaned hamt (listClean_sound hlc)
      · rw [noDictParts, hpp] at hnd
        exact absurd hnd (by simp)

/-- C4 (amended): `sanitize_all` is idempotent on batches containing no
custom-split (dict participants) record; `sanitize_all_not_idempotent` shows
a dict record breaking idempotence. -/
theorem sanitize_all_idem_noDict (xs : List PyVal)
    (h : ∀ e ∈ xs, noDictParts e) :
    sanitize_all (sanitize_all xs) = sanitize_all xs := by
  induction xs with
  | nil => simp [sanitize_all]
  | cons e rest ih =>
    have hrest := ih (fun t ht => h t (by simp [ht]))
    rcases hse : sanitize_expense e with _ | e'
    · have h1 : sanitize_all (e :: rest) = sanitize_all rest := by
        simp [sanitize_all, List.filterMap_cons, hse]
      rw [h1]
      exact hrest
    · have hfix := sanitize_expense_idem (h e (by simp)) hse
      have h1 : sanitize_all (e :: rest) = e' :: sanitize_all rest := by
        simp [sanitize_all, List.filterMap_cons, hse]
      have h2 : sanitize_all (e' :: sanitize_all rest) =
          e' :: sanitize_all (sanitize_all rest) := by
        simp [sanitize_all, List.filterMap_cons, hfix]
      rw [h1, h2, hrest]

/-- Counterexample to C4 as stated: the zero-sum fallback record
`{payer: p, amount: 0.2, participants: {a..f: 0}}` gets equal shares of 0.03
on the first sanitization (total 0.18), and a second sanitization rescales
them and puts the 0.02 remainder on `a` — so `sanitize_all` is not
idempotent. -/
theorem sanitize_all_not_idempotent :
    sanitize_all (sanitize_all [PyVal.vdict [("payer", PyVal.vstr "p"),
        ("amount", PyVal.vnum (1/5)),
        ("participants", PyVal.vdict [("a", PyVal.vnum 0), ("b", PyVal.vnum 0),
          ("c", PyVal.vnum 0), ("d", PyVal.vnum 0), ("e", PyVal.vnum 0),
          ("f", PyVal.vnum 0)])]]) ≠
      sanitize_all [PyVal.vdict [("payer", PyVal.vstr "p"),
        ("amount", PyVal.vnum (1/5)),
        ("participants", PyVal.vdict [("a", PyVal.vnum 0), ("b", PyVal.vnum 0),
          ("c", PyVal.vnum 0), ("d", PyVal.vnum 0), ("e", PyVal.vnum 0),
          ("f", PyVal.vnum 0)])]] := by
  have hsp : pyStrip "p" = "p" := by decide
  have hsa : pyStrip "a" = "a" := by decide
  have hsb : pyStrip "b" = "b" := by decide
  have hsc : pyStrip "c" = "c" := by decide
  have hsd : pyStrip "d" = "d" := by decide
  have hse : pyStrip "e" = "e" := by decide
  have hsf : pyStrip "f" = "f" := by decide
  have h30 : round2 ((1:ℚ)/30) = 3/100 := by
    have := round2_val (1/30) 3 (by norm_num) (by norm_num)
    simpa using this
  have h50 : round2 ((1:ℚ)/50) = 1/50 := round2_cent ⟨2, by norm_num⟩
  have h20 : round2 ((1:ℚ)/20) = 1/20 := round2_cent ⟨5, by norm_num⟩
  have habs : |(1:ℚ)/50| = 1/50 := abs_of_pos (by norm_num)
  have E1 : sanitize_all [PyVal.vdict [("payer", PyVal.vstr "p"),
      ("amount", PyVal.vnum (1/5)),
      ("participants", PyVal.vdict [("a", PyVal.vnum 0), ("b", PyVal.vnum 0),
        ("c", PyVal.vnum 0), ("d", PyVal.vnum 0), ("e", PyVal.vnum 0),
        ("f", PyVal.vnum 0)])]] =
      [PyVal.vdict [("payer", PyVal.vstr "p"), ("amount", PyVal.vnum (1/5)),
        ("participants", PyVal.vdict [("a", PyVal.vnum (3/100)), ("b", PyVal.vnum (3/100)),
          ("c", PyVal.vnum (3/100)), ("d", PyVal.vnum (3/100)), ("e", PyVal.vnum (3/100)),
          ("f", PyVal.vnum (3/100))])]] := by
    norm_num +decide [sanitize_all, sanitize_expense, pyGet, alookup, pyOr, truthy, pyFloat,
      pyStr, hsp, hsa, hsb, hsc, hsd, hse, hsf, cleanShares, dictInsertQ, fixShares,
      updateHead, encodeShares, dictSet, List.foldl, List.filterMap, h30, h50, h20]
  have E2 : sanitize_all [PyVal.vdict [("payer", PyVal.vstr "p"),
      ("amount", PyVal.vnum (1/5)),
      ("participants", PyVal.vdict [("a", PyVal.vnum (3/100)), ("b", PyVal.vnum (3/100)),
        ("c", PyVal.vnum (3/100)), ("d", PyVal.vnum (3/100)), ("e", PyVal.vnum (3/100)),
        ("f", PyVal.vnum (3/100))])]] =
      [PyVal.vdict [("payer", PyVal.vstr "p"), ("amount", PyVal.vnum (1/5)),
        ("participants", PyVal.vdict [("a", PyVal.vnum (1/20)), ("b", PyVal.vnum (3/100)),
          ("c", PyVal.vnum (3/100)), ("d", PyVal.vnum (3/100)), ("e", PyVal.vnum (3/100)),
          ("f", PyVal.vnum (3/100))])]] := by
    norm_num +decide [sanitize_all, sanitize_expense, pyGet, alookup, pyOr, truthy, pyFloat,
      pyStr, hsp, hsa, hsb, hsc, hsd, hse, hsf, cleanShares, dictInsertQ, fixShares,
      updateHead, encodeShares, dictSet, List.foldl, List.filterMap, h30, h50, h20, habs]
  rw [E1, E2]
  intro hcontra
  simp only [List.cons.injEq, PyVal.vdict.injEq, Prod.mk.injEq, PyVal.vnum.injEq,
    and_true, true_and] at hcontra
  norm_num at hcontra

/-- Witness for C4 (amended): a batch with an equal-split record and a
malformed record is idempotent under `sanitize_all`. -/
theorem sanitize_all_idem_noDict_witness :
    sanitize_all (sanitize_all [PyVal.vdict [("payer", PyVal.vstr " Alice "),
        ("amount", PyVal.vnum 30),
        ("participants", PyVal.vlist [PyVal.vstr "Alice", PyVal.vstr "Bob "])],
      PyVal.vnone]) =
      sanitize_all [PyVal.vdict [("payer", PyVal.vstr " Alice "),
        ("amount", PyVal.vnum 30),
        ("participants", PyVal.vlist [PyVal.vstr "Alice", PyVal.vstr "Bob "])],
      PyVal.vnone] :=
  sanitize_all_idem_noDict _ (by
    intro e he
    rcases List.mem_cons.mp he with rfl | he'
    · simp [noDictParts, pyGet, alookup]
    · rcases List.mem_singleton.mp he' with rfl
      simp [noDictParts])

/-! ### C2: conservation of money up to per-record and rounding tolerances -/

theorem balSum_balAdd (b : List (String × ℚ)) (p : String) (x : ℚ) :
    balSum (balAdd b p x) = balSum b + x := by
  induction b with
  | nil => simp [balAdd, balSum]
  | cons kv rest ih =>
    obtain ⟨k, v⟩ := kv
    by_cases h : k = p
    · simp [balAdd, h, balSum]
      ring
    · simp only [balAdd, if_neg h, balSum, List.map_cons, List.sum_cons] at ih ⊢
      rw [ih]
      ring

theorem balSum_debit_dict (pd : List (String × PyVal)) (b : List (String × ℚ)) :
    balSum (pd.foldl (fun b' kv => balAdd b' kv.1 (-((pyFloat kv.2).getD 0))) b) =
      balSum b - (pd.map (fun kv => (pyFloat kv.2).getD 0)).sum := by
  induction pd generalizing b with
  | nil => simp
  | cons kv rest ih =>
    simp only [List.foldl_cons, List.map_cons, List.sum_cons]
    rw [ih, balSum_balAdd]
    ring

theorem balSum_debit_list (l : List PyVal) (c : ℚ) (b : List (String × ℚ)) :
    balSum (l.foldl (fun b' p => balAdd b' (pyStr p) (-c)) b) =
      balSum b - l.length * c := by
  induction l generalizing b with
  | nil => simp
  | cons p rest ih =>
    simp only [List.foldl_cons, List.length_cons]
    rw [ih, balSum_balAdd]
    push_cast
    ring

theorem balSum_applyExpense (b : List (String × ℚ)) (e : PyVal) (hg : goodRec e) :
    |balSum (applyExpense b e) - balSum b| ≤ 1/100 := by
  rcases e with s | q | _ | l | d
  · simp [applyExpense]
  · simp [applyExpense]
  · simp [applyExpense]
  · simp [applyExpense]
  · rcases hpp : pyGet d "participants" (.vlist []) with s | q | _ | l | pd
    · rw [goodRec, recParts, hpp] at hg
      exact absurd hg (by simp)
    · rw [goodRec, recParts, hpp] at hg
      exact absurd hg (by simp)
    · rw [goodRec, recParts, hpp] at hg
      exact absurd hg (by simp)
    · rw [goodRec, recParts, hpp] at hg
      simp only [applyExpense, hpp]
      by_cases hl : l.isEmpty
      · rw [if_pos hl]
        rw [List.isEmpty_iff] at hl
        rcases hg with hg | hg
        · exact absurd hl hg
        · rw [balSum_balAdd]
          rw [recAmount] at hg
          rw [hg]
          simp
      · rw [if_neg hl]
        rw [balSum_balAdd, balSum_debit_list]
        have hn : (l.length : ℚ) ≠ 0 := by
          rw [List.isEmpty_iff] at hl
          have := List.length_pos.mpr hl
          positivity
        have : (l.length : ℚ) * (recAmount (.vdict d) / (l.length : ℚ)) =
            recAmount (.vdict d) := by
          field_simp
        rw [recAmount] at this
        rw [this]
        simp
    · rw [goodRec, recParts, hpp] at hg
      simp only [applyExpense, hpp]
      rw [balSum_balAdd, balSum_debit_dict]
      have hsh : (sharesOf (.vdict d)).map (fun kv => kv.2) =
          pd.map (fun kv => (pyFloat kv.2).getD 0) := by
        rw [sharesOf, recParts, hpp]
        simp [List.map_map]
      rw [hsh] at hg
      rw [recAmount] at hg
      calc |balSum b - (pd.map (fun kv => (pyFloat kv.2).getD 0)).sum +
            (pyFloat (pyOr (pyGet d "amount" (PyVal.vnum 0)) (PyVal.vnum 0))).getD 0 - balSum b|
          = |(pyFloat (pyOr (pyGet d "amount" (PyVal.vnum 0)) (PyVal.vnum 0))).getD 0 -
            (pd.map (fun kv => (pyFloat kv.2).getD 0)).sum| := by ring_nf
        _ ≤ 1/100 := hg

theorem balSum_fold (es : List PyVal) (b : List (String × ℚ))
    (h : ∀ e ∈ es, goodRec e) :
    |balSum (es.foldl applyExpense b) - balSum b| ≤ es.length * (1/100) := by
  induction es generalizing b with
  | nil => simp
  | cons e rest ih =>
    simp only [List.foldl_cons, List.length_cons]
    calc |balSum (rest.foldl applyExpense (applyExpense b e)) - balSum b|
        ≤ |balSum (rest.foldl applyExpense (applyExpense b e)) - balSum (applyExpense b e)| +
          |balSum (applyExpense b e) - balSum b| := by
          have := abs_sub_abs_le_abs_sub (balSum (rest.foldl applyExpense (applyExpense b e)))
            (balSum b)
          exact abs_sub_le _ _ _
      _ ≤ rest.length * (1/100) + 1/100 := by
          gcongr
          · exact ih (applyExpense b e) (fun t ht => h t (by simp [ht]))
          · exact balSum_applyExpense b e (h e (by simp))
      _ = (rest.length + 1) * (1/100) := by ring
      _ = ((rest.length + 1 : ℕ) : ℚ) * (1/100) := by push_cast; ring

theorem roundBal_eq_round2 (v : ℚ) : roundBal v = round2 v := by
  rw [roundBal]
  by_cases h : |round2 v| < 1/100
  · rw [if_pos h]
    exact ((isCent_round2 v).eq_zero_of_abs_lt h).symm
  · rw [if_neg h]

theorem balSum_round (b : List (String × ℚ)) :
    |balSum (b.map (fun kv => (kv.1, roundBal kv.2))) - balSum b| ≤ b.length * (1/200) := by
  induction b with
  | nil => simp [balSum]
  | cons kv rest ih =>
    simp only [List.map_cons, balSum, List.sum_cons, List.length_cons] at ih ⊢
    rw [roundBal_eq_round2]
    have h1 : |round2 kv.2 - kv.2| ≤ 1/200 := abs_round2_sub_le _
    push_cast
    set S1 := ((rest.map (fun kv => (kv.1, roundBal kv.2))).map (fun kv => kv.2)).sum with hS1
    set S2 := (rest.map (fun kv => kv.2)).sum with hS2
    calc |round2 kv.2 + S1 - (kv.2 + S2)| = |(round2 kv.2 - kv.2) + (S1 - S2)| := by ring_nf
      _ ≤ |round2 kv.2 - kv.2| + |S1 - S2| := abs_add _ _
      _ ≤ 1/200 + rest.length * (1/200) := add_le_add h1 ih
      _ = (rest.length + 1) * (1/200) := by ring

/-- C2 (amended): conservation up to the per-record 0.01 tolerance plus the
final half-cent-per-person rounding: when every sanitized record is
"conserving" (nonempty equal split, zero-amount empty split, or custom shares
within 0.01 of the amount), the balances sum to within
`0.01·records + 0.005·people` of zero. -/
theorem conservation_within_tolerance (records : List PyVal)
    (h : ∀ e ∈ sanitize_all records, goodRec e) :
    |balSum (calculate_balances records)| ≤
      (sanitize_all records).length * (1/100) +
        (calculate_balances records).length * (1/200) := by
  set cleaned := sanitize_all records with hcleaned
  set init := (get_all_people cleaned).map (fun p => (p, (0:ℚ))) with hinitdef
  set B := cleaned.foldl applyExpense init with hB
  have hcalc : calculate_balances records = B.map (fun kv => (kv.1, roundBal kv.2)) := rfl
  have hinit : balSum init = 0 := by
    rw [hinitdef, balSum, List.map_map]
    have : ((fun kv : String × ℚ => kv.2) ∘ fun p : String => (p, (0:ℚ))) =
        fun _ => (0:ℚ) := rfl
    rw [this]
    simp
  have h1 : |balSum B| ≤ cleaned.length * (1/100) := by
    have := balSum_fold cleaned init h
    rw [hinit, sub_zero] at this
    exact this
  have h2 : |balSum (calculate_balances records) - balSum B| ≤ B.length * (1/200) := by
    rw [hcalc]
    exact balSum_round B
  have hlen : (calculate_balances records).length = B.length := by
    rw [hcalc, List.length_map]
  rw [hlen]
  calc |balSum (calculate_balances records)|
      ≤ |balSum (calculate_balances records) - balSum B| + |balSum B| := by
        have := abs_add (balSum (calculate_balances records) - balSum B) (balSum B)
        simpa using this
    _ ≤ B.length * (1/200) + cleaned.length * (1/100) := add_le_add h2 h1
    _ = cleaned.length * (1/100) + B.length * (1/200) := by ring

/-- Counterexample to C2 as stated: a record whose `participants` is `None`
is sanitized to an empty split, so the payer is credited 10 and nobody is
debited — the balances sum to 10, far beyond 0.01 per record. -/
theorem conservation_fails_on_informational_record :
    ¬(|balSum (calculate_balances [PyVal.vdict [("payer", PyVal.vstr "p"),
        ("amount", PyVal.vnum 10), ("participants", PyVal.vnone)]])| ≤
      1/100 * (([PyVal.vdict [("payer", PyVal.vstr "p"), ("amount", PyVal.vnum 10),
        ("participants", PyVal.vnone)]] : List PyVal).length : ℚ)) := by
  have hsp : pyStrip "p" = "p" := by decide
  have h10 : round2 (10:ℚ) = 10 := round2_cent ⟨1000, by norm_num⟩
  have E : calculate_balances [PyVal.vdict [("payer", PyVal.vstr "p"),
      ("amount", PyVal.vnum 10), ("participants", PyVal.vnone)]] = [("p", 10)] := by
    norm_num +decide [calculate_balances, sanitize_all, sanitize_expense, get_all_people,
      applyExpense, addPerson, balAdd, roundBal, pyGet, alookup, pyOr, truthy, pyFloat,
      pyStr, hsp, dictSet, List.filterMap, List.foldl, h10]
  rw [E]
  norm_num [balSum]

/-- Witness for C2 (amended) at the spec's scenario 1: Alice pays 30, equal
split among three people. -/
theorem conservation_within_tolerance_witness :
    |balSum (calculate_balances [PyVal.vdict [("payer", PyVal.vstr "Alice"),
        ("amount", PyVal.vnum 30),
        ("participants", PyVal.vlist [PyVal.vstr "Alice", PyVal.vstr "Bob",
          PyVal.vstr "Carol"])]])| ≤
      (sanitize_all [PyVal.vdict [("payer", PyVal.vstr "Alice"),
        ("amount", PyVal.vnum 30),
        ("participants", PyVal.vlist [PyVal.vstr "Alice", PyVal.vstr "Bob",
          PyVal.vstr "Carol"])]]).length * (1/100) +
      (calculate_balances [PyVal.vdict [("payer", PyVal.vstr "Alice"),
        ("amount", PyVal.vnum 30),
        ("participants", PyVal.vlist [PyVal.vstr "Alice", PyVal.vstr "Bob",
          PyVal.vstr "Carol"])]]).length * (1/200) := by
  apply conservation_within_tolerance
  have hsA : pyStrip "Alice" = "Alice" := by decide
  have hsB : pyStrip "Bob" = "Bob" := by decide
  have hsC : pyStrip "Carol" = "Carol" := by decide
  have E : sanitize_all [PyVal.vdict [("payer", PyVal.vstr "Alice"),
      ("amount", PyVal.vnum 30),
      ("participants", PyVal.vlist [PyVal.vstr "Alice", PyVal.vstr "Bob",
        PyVal.vstr "Carol"])]] =
      [PyVal.vdict [("payer", PyVal.vstr "Alice"), ("amount", PyVal.vnum 30),
        ("participants", PyVal.vlist [PyVal.vstr "Alice", PyVal.vstr "Bob",
          PyVal.vstr "Carol"])]] := by
    norm_num +decide [sanitize_all, sanitize_expense, listClean, pyGet, alookup, pyOr,
      truthy, pyFloat, pyStr, hsA, hsB, hsC, dictSet, List.filterMap]
  rw [E]
  intro e he
  rw [List.mem_singleton] at he
  subst he
  norm_num +decide [goodRec, recParts, pyGet, alookup]
  simp

/-! ### The settlement loop: emitted triples, termination, transfer count -/

theorem spLoop_triples (fuel : ℕ) (debtors creditors : List (String × ℚ)) (i j : ℕ)
    (acc r : List (String × String × ℚ))
    (h : spLoop fuel debtors creditors i j acc = some r) :
    ∀ t ∈ r, t ∈ acc ∨ (t.1 ≠ t.2.1 ∧ 1/100 ≤ t.2.2) := by
  induction fuel generalizing debtors creditors i j acc r with
  | zero => simp [spLoop] at h
  | succ f ih =>
    by_cases hin : i < debtors.length ∧ j < creditors.length
    · simp only [spLoop, dif_pos hin] at h
      by_cases hself : (debtors.get ⟨i, hin.1⟩).1 = (creditors.get ⟨j, hin.2⟩).1
      · rw [if_pos hself] at h
        by_cases hcmp : (creditors.get ⟨j, hin.2⟩).2 < (debtors.get ⟨i, hin.1⟩).2
        · rw [if_pos hcmp] at h
          exact ih _ _ _ _ _ _ h
        · rw [if_neg hcmp] at h
          exact ih _ _ _ _ _ _ h
      · rw [if_neg hself] at h
        by_cases hsmall : round2 (min (debtors.get ⟨i, hin.1⟩).2 (creditors.get ⟨j, hin.2⟩).2)
            < 1/100
        · rw [if_pos hsmall] at h
          by_cases hle : (debtors.get ⟨i, hin.1⟩).2 ≤ (creditors.get ⟨j, hin.2⟩).2
          · rw [if_pos hle] at h
            exact ih _ _ _ _ _ _ h
          · rw [if_neg hle] at h
            exact ih _ _ _ _ _ _ h
        · rw [if_neg hsmall] at h
          intro t ht
          rcases ih _ _ _ _ _ _ h t ht with hmem | hgood
          · rcases List.mem_append.mp hmem with hmem' | hmem'
            · exact Or.inl hmem'
            · rw [List.mem_singleton] at hmem'
              subst hmem'
              refine Or.inr ⟨hself, ?_⟩
              push_neg at hsmall
              exact hsmall
          · exact Or.inr hgood
    · simp only [spLoop, dif_neg hin, Option.some.injEq] at h
      subst h
      exact fun t ht => Or.inl ht

/-- C6: every emitted settlement `(debtor, creditor, amount)` has
`debtor ≠ creditor` and a strictly positive amount (in fact `≥ 0.01`). -/
theorem no_self_payment_pos_amount (balances : List (String × ℚ))
    (t : String × String × ℚ) (ht : t ∈ suggest_payments balances) :
    t.1 ≠ t.2.1 ∧ 0 < t.2.2 := by
  rcases hrun : suggestRun balances with _ | r
  · rw [suggest_payments, hrun] at ht
    simp at ht
  · rw [suggest_payments, hrun] at ht
    rw [suggestRun] at hrun
    rcases spLoop_triples _ _ _ _ _ _ _ hrun t ht with hmem | hgood
    · simp at hmem
    · exact ⟨hgood.1, lt_of_lt_of_le (by norm_num) hgood.2⟩

/-- Witness for C6 at the balances `{A: 1, B: -1}`, whose plan is
`[(B, A, 1.00)]`. -/
theorem no_self_payment_pos_amount_witness :
    ("B", "A", (1:ℚ)).1 ≠ ("B", "A", (1:ℚ)).2.1 ∧ 0 < ("B", "A", (1:ℚ)).2.2 := by
  have h1 : round2 (1:ℚ) = 1 := round2_cent ⟨100, by norm_num⟩
  have h0 : round2 (0:ℚ) = 0 := round2_zero
  have E : suggest_payments [("A", (1:ℚ)), ("B", -1)] = [("B", "A", 1)] := by
    norm_num +decide [suggest_payments, suggestRun, creditorsOf, debtorsOf, sortDesc,
      insertDesc, spLoop, List.filterMap, List.filter, List.foldl, h1, h0]
  exact no_self_payment_pos_amount [("A", 1), ("B", -1)] ("B", "A", 1) (by rw [E]; simp)

/-- In the paying branch, the side achieving the minimum is rounded to exactly
zero, so at least one cursor advances. -/
theorem round2_min_side (d c : ℚ) :
    round2 (d - round2 (min d c)) = 0 ∨ round2 (c - round2 (min d c)) = 0 := by
  rcases le_total d c with hdc | hdc
  · rw [min_eq_left hdc]
    exact Or.inl (round2_sub_round2 d)
  · rw [min_eq_right hdc]
    exact Or.inr (round2_sub_round2 c)

/-- The settlement loop always returns within
`(|debtors| - i) + (|creditors| - j)` iterations, only appends to the
accumulator, and emits at most `(|debtors| - i) + (|creditors| - j) - 1`
transfers (none when a cursor is already exhausted). -/
theorem spLoop_run (fuel : ℕ) (debtors creditors : List (String × ℚ)) (i j : ℕ)
    (acc : List (String × String × ℚ))
    (hfuel : (debtors.length - i) + (creditors.length - j) < fuel) :
    ∃ rest, spLoop fuel debtors creditors i j acc = some (acc ++ rest) ∧
      (i < debtors.length ∧ j < creditors.length →
        rest.length + 1 ≤ (debtors.length - i) + (creditors.length - j)) ∧
      (¬(i < debtors.length ∧ j < creditors.length) → rest = []) := by
  induction fuel generalizing debtors creditors i j acc with
  | zero => omega
  | succ f ih =>
    by_cases hin : i < debtors.length ∧ j < creditors.length
    · obtain ⟨hi, hj⟩ := hin
      by_cases hself : (debtors.get ⟨i, hi⟩).1 = (creditors.get ⟨j, hj⟩).1
      · by_cases hcmp : (creditors.get ⟨j, hj⟩).2 < (debtors.get ⟨i, hi⟩).2
        · obtain ⟨rest, heq, hb1, hb2⟩ := ih debtors creditors i (j+1) acc (by omega)
          refine ⟨rest, ?_, fun _ => ?_, fun hc => absurd ⟨hi, hj⟩ hc⟩
          · simp only [spLoop, dif_pos (And.intro hi hj)]
            rw [if_pos hself, if_pos hcmp]
            exact heq
          · by_cases hin' : i < debtors.length ∧ j + 1 < creditors.length
            · have := hb1 hin'
              omega
            · rw [hb2 hin']
              simp
              omega
        · obtain ⟨rest, heq, hb1, hb2⟩ := ih debtors creditors (i+1) j acc (by omega)
          refine ⟨rest, ?_, fun _ => ?_, fun hc => absurd ⟨hi, hj⟩ hc⟩
          · simp only [spLoop, dif_pos (And.intro hi hj)]
            rw [if_pos hself, if_neg hcmp]
            exact heq
          · by_cases hin' : i + 1 < debtors.length ∧ j < creditors.length
            · have := hb1 hin'
              omega
            · rw [hb2 hin']
              simp
              omega
      · by_cases hsmall : round2 (min (debtors.get ⟨i, hi⟩).2 (creditors.get ⟨j, hj⟩).2) < 1/100
        · by_cases hle : (debtors.get ⟨i, hi⟩).2 ≤ (creditors.get ⟨j, hj⟩).2
          · obtain ⟨rest, heq, hb1, hb2⟩ := ih debtors creditors (i+1) j acc (by omega)
            refine ⟨rest, ?_, fun _ => ?_, fun hc => absurd ⟨hi, hj⟩ hc⟩
            · simp only [spLoop, dif_pos (And.intro hi hj)]
              rw [if_neg hself, if_pos hsmall, if_pos hle]
              exact heq
            · by_cases hin' : i + 1 < debtors.length ∧ j < creditors.length
              · have := hb1 hin'
                omega
              · rw [hb2 hin']
                simp
                omega
          · obtain ⟨rest, heq, hb1, hb2⟩ := ih debtors creditors i (j+1) acc (by omega)
            refine ⟨rest, ?_, fun _ => ?_, fun hc => absurd ⟨hi, hj⟩ hc⟩
            · simp only [spLoop, dif_pos (And.intro hi hj)]
              rw [if_neg hself, if_pos hsmall, if_neg hle]
              exact heq
            · by_cases hin' : i < debtors.length ∧ j + 1 < creditors.length
              · have := hb1 hin'
                omega
              · rw [hb2 hin']
                simp
                omega
        · -- paying branch
          set dk := debtors.get ⟨i, hi⟩ with hdk
          set ck := creditors.get ⟨j, hj⟩ with hck
          set payment := round2 (min dk.2 ck.2) with hpayment
          set nd := round2 (dk.2 - payment) with hnd
          set nc := round2 (ck.2 - payment) with hnc
          set i' := if nd = 0 then i + 1 else i with hi'
          set j' := if nc = 0 then j + 1 else j with hj'
          have hadv : i + j + 1 ≤ i' + j' := by
            rcases round2_min_side dk.2 ck.2 with hz | hz
            · rw [hi', if_pos (by rw [hnd, hpayment]; exact hz)]
              rw [hj']
              split <;> omega
            · rw [hj', if_pos (by rw [hnc, hpayment]; exact hz)]
              rw [hi']
              split <;> omega
          have hi'le : i' ≤ i + 1 := by rw [hi']; split <;> omega
          have hj'le : j' ≤ j + 1 := by rw [hj']; split <;> omega
          have hige : i ≤ i' := by rw [hi']; split <;> omega
          have hjge : j ≤ j' := by rw [hj']; split <;> omega
          have hlen1 : (debtors.set i (dk.1, nd)).length = debtors.length :=
            List.length_set debtors i _
          have hlen2 : (creditors.set j (ck.1, nc)).length = creditors.length :=
            List.length_set creditors j _
          obtain ⟨rest, heq, hb1, hb2⟩ := ih (debtors.set i (dk.1, nd))
            (creditors.set j (ck.1, nc)) i' j' (acc ++ [(dk.1, ck.1, payment)])
            (by rw [hlen1, hlen2]; omega)
          refine ⟨(dk.1, ck.1, payment) :: rest, ?_, fun _ => ?_, fun hc => absurd ⟨hi, hj⟩ hc⟩
          · simp only [spLoop, dif_pos (And.intro hi hj)]
            rw [if_neg hself, if_neg hsmall]
            rw [← hdk, ← hck, ← hpayment, ← hnd, ← hnc, ← hi', ← hj', heq]
            simp
          · simp only [List.length_cons]
            by_cases hin' : i' < (debtors.set i (dk.1, nd)).length ∧
                j' < (creditors.set j (ck.1, nc)).length
            · have := hb1 hin'
              rw [hlen1, hlen2] at this
              omega
            · rw [hb2 hin']
              rw [hlen1, hlen2] at hin'
              simp
              omega
    · refine ⟨[], ?_, fun hc => absurd hc hin, fun _ => rfl⟩
      simp only [spLoop, dif_neg hin]
      simp

theorem insertDesc_perm (x : String × ℚ) (l : List (String × ℚ)) :
    (insertDesc x l).Perm (x :: l) := by
  induction l with
  | nil => simp [insertDesc]
  | cons y ys ih =>
    rw [insertDesc]
    by_cases h : y.2 < x.2
    · rw [if_pos h]
    · rw [if_neg h]
      exact List.Perm.trans (List.Perm.cons y ih) (List.Perm.swap x y ys)

theorem foldl_insertDesc_perm (l acc : List (String × ℚ)) :
    (l.foldl (fun a x => insertDesc x a) acc).Perm (acc ++ l) := by
  induction l generalizing acc with
  | nil => simp
  | cons x xs ih =>
    simp only [List.foldl_cons]
    exact (ih (insertDesc x acc)).trans
      (((insertDesc_perm x acc).append_right xs).trans List.perm_middle.symm)

theorem sortDesc_perm (l : List (String × ℚ)) : (sortDesc l).Perm l := by
  have := foldl_insertDesc_perm l []
  simpa [sortDesc] using this

theorem sortDesc_length (l : List (String × ℚ)) : (sortDesc l).length = l.length :=
  (sortDesc_perm l).length_eq

/-- C10: the two-cursor settlement loop of `suggest_payments` terminates on
every finite balance sheet — `|debtors| + |creditors| + 1` fuel always
suffices, whatever the balance values (cent multiples or not). -/
theorem suggest_payments_terminates (balances : List (String × ℚ)) :
    ∃ plan, suggestRun balances = some plan := by
  obtain ⟨rest, heq, -, -⟩ := spLoop_run
    ((sortDesc (debtorsOf balances)).length + (sortDesc (creditorsOf balances)).length + 1)
    (sortDesc (debtorsOf balances)) (sortDesc (creditorsOf balances)) 0 0 [] (by omega)
  exact ⟨[] ++ rest, heq⟩

/-- C5: the settlement plan has at most `debtors + creditors - 1` transfers
when both sides are nonempty, and is empty when either side is empty. -/
theorem transfer_count_bound (balances : List (String × ℚ)) :
    ((debtorsOf balances ≠ [] ∧ creditorsOf balances ≠ []) →
      (suggest_payments balances).length ≤
        (debtorsOf balances).length + (creditorsOf balances).length - 1) ∧
    ((debtorsOf balances = [] ∨ creditorsOf balances = []) →
      suggest_payments balances = []) := by
  obtain ⟨rest, heq, hb1, hb2⟩ := spLoop_run
    ((sortDesc (debtorsOf balances)).length + (sortDesc (creditorsOf balances)).length + 1)
    (sortDesc (debtorsOf balances)) (sortDesc (creditorsOf balances)) 0 0 [] (by omega)
  have hrun : suggestRun balances = some ([] ++ rest) := heq
  have hsp : suggest_payments balances = rest := by
    rw [suggest_payments, hrun]
    simp
  have hdl : (sortDesc (debtorsOf balances)).length = (debtorsOf balances).length :=
    sortDesc_length _
  have hcl : (sortDesc (creditorsOf balances)).length = (creditorsOf balances).length :=
    sortDesc_length _
  constructor
  · rintro ⟨hd, hc⟩
    have hd' : 0 < (debtorsOf balances).length := List.length_pos.mpr hd
    have hc' : 0 < (creditorsOf balances).length := List.length_pos.mpr hc
    have := hb1 ⟨by omega, by omega⟩
    rw [hdl, hcl] at this
    rw [hsp]
    omega
  · intro hor
    have : ¬(0 < (sortDesc (debtorsOf balances)).length ∧
        0 < (sortDesc (creditorsOf balances)).length) := by
      rcases hor with hd | hc
      · rw [hdl]
        simp [hd]
      · rw [hcl]
        simp [hc]
    rw [hsp, hb2 this]

/-- Witness for C5 at the spec's scenario 3 balances `{A: 30, B: -10, C: -20}`
(two transfers, bound `2 + 1 - 1 = 2`). -/
theorem transfer_count_bound_witness :
    (suggest_payments [("A", (30:ℚ)), ("B", -10), ("C", -20)]).length ≤
      (debtorsOf [("A", (30:ℚ)), ("B", -10), ("C", -20)]).length +
        (creditorsOf [("A", (30:ℚ)), ("B", -10), ("C", -20)]).length - 1 := by
  have hd : debtorsOf [("A", (30:ℚ)), ("B", -10), ("C", -20)] = [("B", 10), ("C", 20)] := by
    norm_num [debtorsOf, List.filterMap]
  have hc : creditorsOf [("A", (30:ℚ)), ("B", -10), ("C", -20)] = [("A", 30)] := by
    norm_num [creditorsOf, List.filter]
  exact (transfer_count_bound [("A", 30), ("B", -10), ("C", -20)]).1
    ⟨by rw [hd]; simp, by rw [hc]; simp⟩

/-! ### C1: the plan zeroes every balance for cent-multiple sheets summing to 0 -/

theorem drop_set_lt {α : Type} (l : List α) (i j : ℕ) (v : α) (h : i < j) :
    (l.set i v).drop j = l.drop j := by
  rw [List.drop_set, if_pos h]

theorem drop_set_self {α : Type} (l : List α) (i : ℕ) (v : α) (h : i < l.length) :
    (l.set i v).drop i = v :: l.drop (i+1) := by
  rw [List.drop_set, if_neg (lt_irrefl i), Nat.sub_self, List.drop_eq_getElem_cons h]
  rfl

theorem totFrom_cons (l : List (String × ℚ)) (i : ℕ) (h : i < l.length) :
    totFrom l i = (l.get ⟨i, h⟩).2 + totFrom l (i+1) := by
  rw [totFrom, List.drop_eq_getElem_cons h, List.map_cons, List.sum_cons, totFrom]
  rfl

theorem perRem_cons (l : List (String × ℚ)) (i : ℕ) (h : i < l.length) (p : String) :
    perRem l i p = (if (l.get ⟨i, h⟩).1 = p then (l.get ⟨i, h⟩).2 else 0) +
      perRem l (i+1) p := by
  rw [perRem, List.drop_eq_getElem_cons h, List.map_cons, List.sum_cons, perRem]
  rfl

theorem totFrom_past (l : List (String × ℚ)) (i : ℕ) (h : l.length ≤ i) :
    totFrom l i = 0 := by
  rw [totFrom, List.drop_eq_nil_of_le h]
  simp

theorem perRem_past (l : List (String × ℚ)) (i : ℕ) (p : String) (h : l.length ≤ i) :
    perRem l i p = 0 := by
  rw [perRem, List.drop_eq_nil_of_le h]
  simp

theorem mem_drop_next {l : List (String × ℚ)} {i : ℕ} (h : i < l.length)
    {kv : String × ℚ} (hm : kv ∈ l.drop (i+1)) : kv ∈ l.drop i := by
  rw [List.drop_eq_getElem_cons h]
  exact List.mem_cons_of_mem _ hm

theorem totFrom_set_step (l : List (String × ℚ)) (i : ℕ) (h : i < l.length) (m : ℚ) :
    totFrom (l.set i ((l.get ⟨i, h⟩).1, (l.get ⟨i, h⟩).2 - m))
      (if (l.get ⟨i, h⟩).2 - m = 0 then i+1 else i) = totFrom l i - m := by
  by_cases h0 : (l.get ⟨i, h⟩).2 - m = 0
  · rw [if_pos h0, totFrom, drop_set_lt _ _ _ _ (Nat.lt_succ_self i), ← totFrom,
      totFrom_cons l i h]
    have : (l.get ⟨i, h⟩).2 = m := by linarith
    rw [this]
    ring
  · rw [if_neg h0, totFrom, drop_set_self _ _ _ h, List.map_cons, List.sum_cons, ← totFrom,
      totFrom_cons l i h]
    ring

theorem perRem_set_step (l : List (String × ℚ)) (i : ℕ) (h : i < l.length) (m : ℚ)
    (p : String) :
    perRem (l.set i ((l.get ⟨i, h⟩).1, (l.get ⟨i, h⟩).2 - m))
      (if (l.get ⟨i, h⟩).2 - m = 0 then i+1 else i) p =
      perRem l i p - (if (l.get ⟨i, h⟩).1 = p then m else 0) := by
  by_cases h0 : (l.get ⟨i, h⟩).2 - m = 0
  · rw [if_pos h0, perRem, drop_set_lt _ _ _ _ (Nat.lt_succ_self i), ← perRem,
      perRem_cons l i h p]
    have hm : (l.get ⟨i, h⟩).2 = m := by linarith
    by_cases hname : (l.get ⟨i, h⟩).1 = p
    · rw [if_pos hname, if_pos hname, hm]
      ring
    · rw [if_neg hname, if_neg hname]
      ring
  · rw [if_neg h0, perRem, drop_set_self _ _ _ h, List.map_cons, List.sum_cons, ← perRem,
      perRem_cons l i h p]
    by_cases hname : (l.get ⟨i, h⟩).1 = p
    · rw [if_pos hname, if_pos hname, if_pos hname]
      ring
    · rw [if_neg hname, if_neg hname, if_neg hname]
      ring

theorem applyNet_nil (p : String) : applyNet [] p = 0 := by simp [applyNet]

theorem applyNet_cons (a b : String) (c : ℚ) (rest : List (String × String × ℚ))
    (p : String) :
    applyNet ((a, b, c) :: rest) p =
      ((if a = p then c else 0) - (if b = p then c else 0)) + applyNet rest p := by
  simp [applyNet]

theorem drop_nil_of_tot_zero (l : List (String × ℚ)) (i : ℕ)
    (h : ∀ kv ∈ l.drop i, 0 < kv.2) (hz : totFrom l i = 0) : l.drop i = [] := by
  by_contra hne
  have hpos : 0 < ((l.drop i).map (fun kv => kv.2)).sum := by
    apply List.sum_pos
    · intro x hx
      obtain ⟨kv, hkv, rfl⟩ := List.mem_map.mp hx
      exact h kv hkv
    · simpa using hne
  rw [totFrom] at hz
  rw [hz] at hpos
  exact lt_irrefl 0 hpos

/-- The core invariant of the settlement loop: on a sheet of positive cent
multiples with equal remaining debt and credit and disjoint names, the loop
emits a plan whose net effect on each person is exactly their remaining debt
minus their remaining credit. -/
theorem spLoop_net (fuel : ℕ) (debtors creditors : List (String × ℚ)) (i j : ℕ)
    (acc : List (String × String × ℚ))
    (hfuel : (debtors.length - i) + (creditors.length - j) < fuel)
    (hd : ∀ kv ∈ debtors.drop i, 0 < kv.2 ∧ isCent kv.2)
    (hc : ∀ kv ∈ creditors.drop j, 0 < kv.2 ∧ isCent kv.2)
    (hsum : totFrom debtors i = totFrom creditors j)
    (hdisj : ∀ kv ∈ debtors, ∀ kv' ∈ creditors, kv.1 ≠ kv'.1) :
    ∃ rest, spLoop fuel debtors creditors i j acc = some (acc ++ rest) ∧
      ∀ p, applyNet rest p = perRem debtors i p - perRem creditors j p := by
  induction fuel generalizing debtors creditors i j acc with
  | zero => omega
  | succ f ih =>
    by_cases hin : i < debtors.length ∧ j < creditors.length
    · obtain ⟨hi, hj⟩ := hin
      have hdkmem : debtors.get ⟨i, hi⟩ ∈ debtors.drop i := by
        rw [List.drop_eq_getElem_cons hi, List.get_eq_getElem]
        exact List.mem_cons_self _ _
      have hckmem : creditors.get ⟨j, hj⟩ ∈ creditors.drop j := by
        rw [List.drop_eq_getElem_cons hj, List.get_eq_getElem]
        exact List.mem_cons_self _ _
      have hdkmem' : debtors.get ⟨i, hi⟩ ∈ debtors := List.get_mem _ _ hi
      have hckmem' : creditors.get ⟨j, hj⟩ ∈ creditors := List.get_mem _ _ hj
      obtain ⟨hdpos, hdcent⟩ := hd _ hdkmem
      obtain ⟨hcpos, hccent⟩ := hc _ hckmem
      have hselfne : (debtors.get ⟨i, hi⟩).1 ≠ (creditors.get ⟨j, hj⟩).1 :=
        hdisj _ hdkmem' _ hckmem'
      have hmincent : isCent (min (debtors.get ⟨i, hi⟩).2 (creditors.get ⟨j, hj⟩).2) :=
        hdcent.min hccent
      have hpay_eq : round2 (min (debtors.get ⟨i, hi⟩).2 (creditors.get ⟨j, hj⟩).2) =
          min (debtors.get ⟨i, hi⟩).2 (creditors.get ⟨j, hj⟩).2 := round2_cent hmincent
      have hpayge : 1/100 ≤ min (debtors.get ⟨i, hi⟩).2 (creditors.get ⟨j, hj⟩).2 :=
        le_min (hdcent.le_of_pos hdpos) (hccent.le_of_pos hcpos)
      have hsmallne : ¬(round2 (min (debtors.get ⟨i, hi⟩).2 (creditors.get ⟨j, hj⟩).2)
          < 1/100) := by
        rw [hpay_eq]
        exact not_lt.mpr hpayge
      have hndcent : isCent ((debtors.get ⟨i, hi⟩).2 -
          min (debtors.get ⟨i, hi⟩).2 (creditors.get ⟨j, hj⟩).2) := hdcent.sub hmincent
      have hnccent : isCent ((creditors.get ⟨j, hj⟩).2 -
          min (debtors.get ⟨i, hi⟩).2 (creditors.get ⟨j, hj⟩).2) := hccent.sub hmincent
      have hnd_eq : round2 ((debtors.get ⟨i, hi⟩).2 -
          min (debtors.get ⟨i, hi⟩).2 (creditors.get ⟨j, hj⟩).2) =
          (debtors.get ⟨i, hi⟩).2 -
          min (debtors.get ⟨i, hi⟩).2 (creditors.get ⟨j, hj⟩).2 := round2_cent hndcent
      have hnc_eq : round2 ((creditors.get ⟨j, hj⟩).2 -
          min (debtors.get ⟨i, hi⟩).2 (creditors.get ⟨j, hj⟩).2) =
          (creditors.get ⟨j, hj⟩).2 -
          min (debtors.get ⟨i, hi⟩).2 (creditors.get ⟨j, hj⟩).2 := round2_cent hnccent
      have hd' : ∀ kv ∈ (debtors.set i ((debtors.get ⟨i, hi⟩).1,
          (debtors.get ⟨i, hi⟩).2 - min (debtors.get ⟨i, hi⟩).2
            (creditors.get ⟨j, hj⟩).2)).drop
          (if (debtors.get ⟨i, hi⟩).2 - min (debtors.get ⟨i, hi⟩).2
            (creditors.get ⟨j, hj⟩).2 = 0 then i+1 else i),
          0 < kv.2 ∧ isCent kv.2 := by
        by_cases hv : (debtors.get ⟨i, hi⟩).2 - min (debtors.get ⟨i, hi⟩).2
            (creditors.get ⟨j, hj⟩).2 = 0
        · rw [if_pos hv, drop_set_lt _ _ _ _ (Nat.lt_succ_self i)]
          exact fun kv hkv => hd kv (mem_drop_next hi hkv)
        · rw [if_neg hv, drop_set_self _ _ _ hi]
          intro kv hkv
          rcases List.mem_cons.mp hkv with rfl | hkv'
          · refine ⟨?_, hndcent⟩
            have hle := min_le_left (debtors.get ⟨i, hi⟩).2 (creditors.get ⟨j, hj⟩).2
            rcases lt_or_eq_of_le hle with hlt | heqq
            · show (0:ℚ) < (debtors.get ⟨i, hi⟩).2 -
                min (debtors.get ⟨i, hi⟩).2 (creditors.get ⟨j, hj⟩).2
              linarith
            · exact absurd (by rw [heqq]; exact sub_self _) hv
          · exact hd kv (mem_drop_next hi hkv')
      have hc' : ∀ kv ∈ (creditors.set j ((creditors.get ⟨j, hj⟩).1,
          (creditors.get ⟨j, hj⟩).2 - min (debtors.get ⟨i, hi⟩).2
            (creditors.get ⟨j, hj⟩).2)).drop
          (if (creditors.get ⟨j, hj⟩).2 - min (debtors.get ⟨i, hi⟩).2
            (creditors.get ⟨j, hj⟩).2 = 0 then j+1 else j),
          0 < kv.2 ∧ isCent kv.2 := by
        by_cases hv : (creditors.get ⟨j, hj⟩).2 - min (debtors.get ⟨i, hi⟩).2
            (creditors.get ⟨j, hj⟩).2 = 0
        · rw [if_pos hv, drop_set_lt _ _ _ _ (Nat.lt_succ_self j)]
          exact fun kv hkv => hc kv (mem_drop_next hj hkv)
        · rw [if_neg hv, drop_set_self _ _ _ hj]
          intro kv hkv
          rcases List.mem_cons.mp hkv with rfl | hkv'
          · refine ⟨?_, hnccent⟩
            have hle := min_le_right (debtors.get ⟨i, hi⟩).2 (creditors.get ⟨j, hj⟩).2
            rcases lt_or_eq_of_le hle with hlt | heqq
            · show (0:ℚ) < (creditors.get ⟨j, hj⟩).2 -
                min (debtors.get ⟨i, hi⟩).2 (creditors.get ⟨j, hj⟩).2
              linarith
            · exact absurd (by rw [heqq]; exact sub_self _) hv
          · exact hc kv (mem_drop_next hj hkv')
      have hstepD := totFrom_set_step debtors i hi
        (min (debtors.get ⟨i, hi⟩).2 (creditors.get ⟨j, hj⟩).2)
      have hstepC := totFrom_set_step creditors j hj
        (min (debtors.get ⟨i, hi⟩).2 (creditors.get ⟨j, hj⟩).2)
      have hdisj' : ∀ kv ∈ debtors.set i ((debtors.get ⟨i, hi⟩).1,
            (debtors.get ⟨i, hi⟩).2 - min (debtors.get ⟨i, hi⟩).2
              (creditors.get ⟨j, hj⟩).2),
          ∀ kv' ∈ creditors.set j ((creditors.get ⟨j, hj⟩).1,
            (creditors.get ⟨j, hj⟩).2 - min (debtors.get ⟨i, hi⟩).2
              (creditors.get ⟨j, hj⟩).2), kv.1 ≠ kv'.1 := by
        intro kv hkv kv' hkv'
        have h1 : ∃ kv₀ ∈ debtors, kv.1 = kv₀.1 := by
          rcases List.mem_or_eq_of_mem_set hkv with h' | rfl
          · exact ⟨kv, h', rfl⟩
          · exact ⟨debtors.get ⟨i, hi⟩, hdkmem', rfl⟩
        have h2 : ∃ kv₀ ∈ creditors, kv'.1 = kv₀.1 := by
          rcases List.mem_or_eq_of_mem_set hkv' with h' | rfl
          · exact ⟨kv', h', rfl⟩
          · exact ⟨creditors.get ⟨j, hj⟩, hckmem', rfl⟩
        obtain ⟨kv₀, hm0, he0⟩ := h1
        obtain ⟨kv₁, hm1, he1⟩ := h2
        rw [he0, he1]
        exact hdisj kv₀ hm0 kv₁ hm1
      have hadv : i + j + 1 ≤
          (if (debtors.get ⟨i, hi⟩).2 - min (debtors.get ⟨i, hi⟩).2
            (creditors.get ⟨j, hj⟩).2 = 0 then i+1 else i) +
          (if (creditors.get ⟨j, hj⟩).2 - min (debtors.get ⟨i, hi⟩).2
            (creditors.get ⟨j, hj⟩).2 = 0 then j+1 else j) := by
        rcases le_total (debtors.get ⟨i, hi⟩).2 (creditors.get ⟨j, hj⟩).2 with hmle | hmle
        · have hz : (debtors.get ⟨i, hi⟩).2 - min (debtors.get ⟨i, hi⟩).2
              (creditors.get ⟨j, hj⟩).2 = 0 := by
            rw [min_eq_left hmle]
            ring
          rw [if_pos hz]
          split <;> omega
        · have hz : (creditors.get ⟨j, hj⟩).2 - min (debtors.get ⟨i, hi⟩).2
              (creditors.get ⟨j, hj⟩).2 = 0 := by
            rw [min_eq_right hmle]
            ring
          rw [if_pos hz]
          split <;> omega
      have hle1 : (if (debtors.get ⟨i, hi⟩).2 - min (debtors.get ⟨i, hi⟩).2
          (creditors.get ⟨j, hj⟩).2 = 0 then i+1 else i) ≤ i + 1 := by
        split <;> omega
      have hge1 : i ≤ (if (debtors.get ⟨i, hi⟩).2 - min (debtors.get ⟨i, hi⟩).2
          (creditors.get ⟨j, hj⟩).2 = 0 then i+1 else i) := by
        split <;> omega
      have hle2 : (if (creditors.get ⟨j, hj⟩).2 - min (debtors.get ⟨i, hi⟩).2
          (creditors.get ⟨j, hj⟩).2 = 0 then j+1 else j) ≤ j + 1 := by
        split <;> omega
      have hge2 : j ≤ (if (creditors.get ⟨j, hj⟩).2 - min (debtors.get ⟨i, hi⟩).2
          (creditors.get ⟨j, hj⟩).2 = 0 then j+1 else j) := by
        split <;> omega
      have hlen1 : (debtors.set i ((debtors.get ⟨i, hi⟩).1,
          (debtors.get ⟨i, hi⟩).2 - min (debtors.get ⟨i, hi⟩).2
            (creditors.get ⟨j, hj⟩).2)).length = debtors.length := List.length_set _ _ _
      have hlen2 : (creditors.set j ((creditors.get ⟨j, hj⟩).1,
          (creditors.get ⟨j, hj⟩).2 - min (debtors.get ⟨i, hi⟩).2
            (creditors.get ⟨j, hj⟩).2)).length = creditors.length := List.length_set _ _ _
      obtain ⟨rest', heq', hnet'⟩ := ih
        (debtors.set i ((debtors.get ⟨i, hi⟩).1,
          (debtors.get ⟨i, hi⟩).2 - min (debtors.get ⟨i, hi⟩).2 (creditors.get ⟨j, hj⟩).2))
        (creditors.set j ((creditors.get ⟨j, hj⟩).1,
          (creditors.get ⟨j, hj⟩).2 - min (debtors.get ⟨i, hi⟩).2 (creditors.get ⟨j, hj⟩).2))
        (if (debtors.get ⟨i, hi⟩).2 - min (debtors.get ⟨i, hi⟩).2
          (creditors.get ⟨j, hj⟩).2 = 0 then i+1 else i)
        (if (creditors.get ⟨j, hj⟩).2 - min (debtors.get ⟨i, hi⟩).2
          (creditors.get ⟨j, hj⟩).2 = 0 then j+1 else j)
        (acc ++ [((debtors.get ⟨i, hi⟩).1, (creditors.get ⟨j, hj⟩).1,
          min (debtors.get ⟨i, hi⟩).2 (creditors.get ⟨j, hj⟩).2)])
        (by rw [hlen1, hlen2]; omega) hd' hc' (by rw [hstepD, hstepC, hsum]) hdisj'
      refine ⟨((debtors.get ⟨i, hi⟩).1, (creditors.get ⟨j, hj⟩).1,
        min (debtors.get ⟨i, hi⟩).2 (creditors.get ⟨j, hj⟩).2) :: rest', ?_, ?_⟩
      · simp only [spLoop, dif_pos (And.intro hi hj)]
        rw [if_neg hselfne, if_neg hsmallne, hpay_eq, hnd_eq, hnc_eq, heq']
        simp
      · intro p
        rw [applyNet_cons, hnet' p,
          perRem_set_step debtors i hi
            (min (debtors.get ⟨i, hi⟩).2 (creditors.get ⟨j, hj⟩).2) p,
          perRem_set_step creditors j hj
            (min (debtors.get ⟨i, hi⟩).2 (creditors.get ⟨j, hj⟩).2) p]
        ring
    · refine ⟨[], ?_, ?_⟩
      · simp only [spLoop, dif_neg hin]
        simp
      · intro p
        rw [applyNet_nil]
        have hor : debtors.length ≤ i ∨ creditors.length ≤ j := by omega
        rcases hor with hle | hle
        · have hD : perRem debtors i p = 0 := perRem_past _ _ _ hle
          have hDt : totFrom debtors i = 0 := totFrom_past _ _ hle
          have hCnil : creditors.drop j = [] :=
            drop_nil_of_tot_zero _ _ (fun kv hkv => (hc kv hkv).1) (by rw [← hsum, hDt])
          have hC : perRem creditors j p = 0 := by
            rw [perRem, hCnil]
            simp
          rw [hD, hC]
          ring
        · have hC : perRem creditors j p = 0 := perRem_past _ _ _ hle
          have hCt : totFrom creditors j = 0 := totFrom_past _ _ hle
          have hDnil : debtors.drop i = [] :=
            drop_nil_of_tot_zero _ _ (fun kv hkv => (hd kv hkv).1) (by rw [hsum, hCt])
          have hD : perRem debtors i p = 0 := by
            rw [perRem, hDnil]
            simp
          rw [hD, hC]
          ring

/-! ### Initial-state facts for the settlement loop -/

theorem creditorsOf_cons (hd : String × ℚ) (t : List (String × ℚ)) :
    creditorsOf (hd :: t) = if 0 < hd.2 then hd :: creditorsOf t else creditorsOf t := by
  by_cases h : 0 < hd.2
  · rw [if_pos h]
    simp [creditorsOf, List.filter_cons, h]
  · rw [if_neg h]
    simp [creditorsOf, List.filter_cons, h]

theorem debtorsOf_cons (hd : String × ℚ) (t : List (String × ℚ)) :
    debtorsOf (hd :: t) =
      if hd.2 < 0 then (hd.1, -hd.2) :: debtorsOf t else debtorsOf t := by
  by_cases h : hd.2 < 0
  · rw [if_pos h]
    simp [debtorsOf, List.filterMap_cons, h]
  · rw [if_neg h]
    simp [debtorsOf, List.filterMap_cons, h]

theorem mem_debtorsOf {b : List (String × ℚ)} {kv : String × ℚ} (h : kv ∈ debtorsOf b) :
    ∃ a ∈ b, a.1 = kv.1 ∧ a.2 = -kv.2 ∧ a.2 < 0 := by
  rw [debtorsOf, List.mem_filterMap] at h
  obtain ⟨a, ha, heq⟩ := h
  by_cases hlt : a.2 < 0
  · rw [if_pos hlt] at heq
    have heq' : (a.1, -a.2) = kv := Option.some.inj heq
    refine ⟨a, ha, ?_, ?_, hlt⟩
    · rw [← heq']
    · rw [← heq']
      simp
  · rw [if_neg hlt] at heq
    exact absurd heq (by simp)

theorem mem_creditorsOf {b : List (String × ℚ)} {kv : String × ℚ}
    (h : kv ∈ creditorsOf b) : kv ∈ b ∧ 0 < kv.2 := by
  rw [creditorsOf, List.mem_filter] at h
  exact ⟨h.1, by simpa using h.2⟩

/-- The positive and negative partitions of the sheet account for the whole
sum: `sum(creditors) - sum(debtors) = sum(balances)`. -/
theorem sums_split (b : List (String × ℚ)) :
    ((creditorsOf b).map (fun kv => kv.2)).sum =
      ((debtorsOf b).map (fun kv => kv.2)).sum + (b.map (fun kv => kv.2)).sum := by
  induction b with
  | nil => simp [creditorsOf, debtorsOf]
  | cons hd t ih =>
    rcases lt_trichotomy hd.2 0 with h | h | h
    · rw [creditorsOf_cons, debtorsOf_cons, if_neg (by linarith : ¬ (0:ℚ) < hd.2), if_pos h]
      simp only [List.map_cons, List.sum_cons]
      linarith [ih]
    · rw [creditorsOf_cons, debtorsOf_cons,
        if_neg (show ¬ (0:ℚ) < hd.2 by rw [h]; exact lt_irrefl 0),
        if_neg (show ¬ hd.2 < 0 by rw [h]; exact lt_irrefl 0)]
      simp only [List.map_cons, List.sum_cons]
      rw [h]
      linarith [ih]
    · rw [creditorsOf_cons, debtorsOf_cons, if_neg (by linarith : ¬ hd.2 < 0), if_pos h]
      simp only [List.map_cons, List.sum_cons]
      linarith [ih]

/-- In a sheet with no repeated person, a person's value is unique. -/
theorem nodup_key_unique : ∀ {b : List (String × ℚ)}, (b.map Prod.fst).Nodup →
    ∀ {x y : String × ℚ}, x ∈ b → y ∈ b → x.1 = y.1 → x.2 = y.2 := by
  intro b
  induction b with
  | nil =>
    intro _ x y hx _ _
    exact absurd hx (List.not_mem_nil x)
  | cons hd t ih =>
    intro hnd x y hx hy hk
    rw [List.map_cons, List.nodup_cons] at hnd
    rcases List.mem_cons.mp hx with rfl | hx' <;> rcases List.mem_cons.mp hy with rfl | hy'
    · rfl
    · exact absurd (by rw [hk]; exact List.mem_map_of_mem Prod.fst hy') hnd.1
    · exact absurd (by rw [← hk]; exact List.mem_map_of_mem Prod.fst hx') hnd.1
    · exact ih hnd.2 hx' hy' hk

theorem alookupQ_cons (k : String) (v : ℚ) (t : List (String × ℚ)) (p : String) :
    alookupQ ((k, v) :: t) p = if k = p then some v else alookupQ t p := rfl

theorem perRem_zero_cons (kv : String × ℚ) (l : List (String × ℚ)) (p : String) :
    perRem (kv :: l) 0 p = (if kv.1 = p then kv.2 else 0) + perRem l 0 p := by
  simp [perRem]

theorem perRem_zero_of_absent (l : List (String × ℚ)) (p : String)
    (h : ∀ kv ∈ l, kv.1 ≠ p) : perRem l 0 p = 0 := by
  rw [perRem, List.drop_zero]
  apply List.sum_eq_zero
  intro x hx
  obtain ⟨kv, hkv, rfl⟩ := List.mem_map.mp hx
  rw [if_neg (h kv hkv)]

theorem debtorsOf_key_mem {b : List (String × ℚ)} {kv : String × ℚ}
    (h : kv ∈ debtorsOf b) : kv.1 ∈ b.map Prod.fst := by
  obtain ⟨a, ha, hk, _, _⟩ := mem_debtorsOf h
  rw [← hk]
  exact List.mem_map_of_mem Prod.fst ha

theorem creditorsOf_key_mem {b : List (String × ℚ)} {kv : String × ℚ}
    (h : kv ∈ creditorsOf b) : kv.1 ∈ b.map Prod.fst :=
  List.mem_map_of_mem Prod.fst (mem_creditorsOf h).1

/-- Per person, remaining debt minus remaining credit at the start of the loop
is the negated balance (for sheets without repeated names). -/
theorem perRem_split : ∀ (b : List (String × ℚ)), (b.map Prod.fst).Nodup →
    ∀ (p : String),
    perRem (debtorsOf b) 0 p - perRem (creditorsOf b) 0 p = - balLookup b p := by
  intro b
  induction b with
  | nil =>
    intro _ p
    simp [debtorsOf, creditorsOf, perRem, balLookup, alookupQ]
  | cons hd t ih =>
    intro hnd p
    obtain ⟨k, v⟩ := hd
    rw [List.map_cons, List.nodup_cons] at hnd
    obtain ⟨hhd, hnt⟩ := hnd
    by_cases hp : k = p
    · have hbl : balLookup ((k, v) :: t) p = v := by
        simp only [balLookup, alookupQ_cons, if_pos hp, Option.getD_some]
      have hDt : perRem (debtorsOf t) 0 p = 0 := by
        apply perRem_zero_of_absent
        intro kv hkv hkp
        have hmem := debtorsOf_key_mem hkv
        rw [hkp, ← hp] at hmem
        exact hhd hmem
      have hCt : perRem (creditorsOf t) 0 p = 0 := by
        apply perRem_zero_of_absent
        intro kv hkv hkp
        have hmem := creditorsOf_key_mem hkv
        rw [hkp, ← hp] at hmem
        exact hhd hmem
      rw [debtorsOf_cons, creditorsOf_cons]
      rcases lt_trichotomy v 0 with h | h | h
      · rw [if_pos h, if_neg (by linarith : ¬ (0:ℚ) < v), perRem_zero_cons, hDt, hCt, hbl]
        simp [hp]
      · rw [if_neg (show ¬ (v:ℚ) < 0 by rw [h]; exact lt_irrefl 0),
          if_neg (show ¬ (0:ℚ) < v by rw [h]; exact lt_irrefl 0), hDt, hCt, hbl, h]
        norm_num
      · rw [if_neg (by linarith : ¬ (v:ℚ) < 0), if_pos h, perRem_zero_cons, hDt, hCt, hbl]
        simp [hp]
    · have hbl : balLookup ((k, v) :: t) p = balLookup t p := by
        simp only [balLookup, alookupQ_cons, if_neg hp]
      rw [debtorsOf_cons, creditorsOf_cons, hbl]
      split_ifs with h1 h2 h2
      · exact absurd h2 (by linarith)
      · rw [perRem_zero_cons, if_neg hp, zero_add]
        exact ih hnt p
      · rw [perRem_zero_cons, if_neg hp, zero_add]
        exact ih hnt p
      · exact ih hnt p

theorem perRem_perm {l l' : List (String × ℚ)} (h : l.Perm l') (p : String) :
    perRem l 0 p = perRem l' 0 p := by
  rw [perRem, perRem, List.drop_zero, List.drop_zero]
  exact (h.map _).sum_eq

theorem suggestRun_eq (balances : List (String × ℚ)) :
    suggestRun balances =
      spLoop ((sortDesc (debtorsOf balances)).length +
          (sortDesc (creditorsOf balances)).length + 1)
        (sortDesc (debtorsOf balances)) (sortDesc (creditorsOf balances)) 0 0 [] := rfl

/-- C1 (amended): if every balance on the sheet is an exact multiple of 0.01,
the balances sum to exactly zero, and no person appears twice, then applying
every `(debtor, creditor, amount)` of `suggest_payments` — adding the amount to
the debtor and subtracting it from the creditor — zeroes every person's
balance.  As stated the claim is false: for sub-cent balances summing to zero
the plan can leave balances untouched (`settlement_leaves_subcent_balance`). -/
theorem settlement_zeroes_cent_balances (b : List (String × ℚ))
    (hcent : ∀ kv ∈ b, isCent kv.2)
    (hsum : (b.map (fun kv => kv.2)).sum = 0)
    (hnodup : (b.map Prod.fst).Nodup) (p : String) :
    balLookup b p + applyNet (suggest_payments b) p = 0 := by
  have hpermD : (sortDesc (debtorsOf b)).Perm (debtorsOf b) := sortDesc_perm _
  have hpermC : (sortDesc (creditorsOf b)).Perm (creditorsOf b) := sortDesc_perm _
  have hd : ∀ kv ∈ (sortDesc (debtorsOf b)).drop 0, 0 < kv.2 ∧ isCent kv.2 := by
    intro kv hm
    rw [List.drop_zero] at hm
    obtain ⟨a, ha, hk, hv, hneg⟩ := mem_debtorsOf (hpermD.mem_iff.mp hm)
    constructor
    · linarith
    · have h1 : isCent (-kv.2) := hv ▸ hcent a ha
      simpa using h1.neg
  have hc : ∀ kv ∈ (sortDesc (creditorsOf b)).drop 0, 0 < kv.2 ∧ isCent kv.2 := by
    intro kv hm
    rw [List.drop_zero] at hm
    obtain ⟨hmem, hpos⟩ := mem_creditorsOf (hpermC.mem_iff.mp hm)
    exact ⟨hpos, hcent kv hmem⟩
  have htot : totFrom (sortDesc (debtorsOf b)) 0 = totFrom (sortDesc (creditorsOf b)) 0 := by
    rw [totFrom, totFrom, List.drop_zero, List.drop_zero,
      (hpermD.map _).sum_eq, (hpermC.map _).sum_eq]
    have hs := sums_split b
    rw [hsum] at hs
    linarith
  have hdisj : ∀ kv ∈ sortDesc (debtorsOf b), ∀ kv' ∈ sortDesc (creditorsOf b),
      kv.1 ≠ kv'.1 := by
    intro kv hkv kv' hkv' heqk
    obtain ⟨a, ha, hk, hv, hneg⟩ := mem_debtorsOf (hpermD.mem_iff.mp hkv)
    obtain ⟨hmem, hpos⟩ := mem_creditorsOf (hpermC.mem_iff.mp hkv')
    have hkk : a.1 = kv'.1 := by rw [hk, heqk]
    have := nodup_key_unique hnodup ha hmem hkk
    linarith
  obtain ⟨rest, heq, hnet⟩ := spLoop_net
    ((sortDesc (debtorsOf b)).length + (sortDesc (creditorsOf b)).length + 1)
    (sortDesc (debtorsOf b)) (sortDesc (creditorsOf b)) 0 0 []
    (by omega) hd hc htot hdisj
  have hplan : suggest_payments b = rest := by
    rw [suggest_payments, suggestRun_eq, heq]
    simp
  rw [hplan, hnet p, perRem_perm hpermD p, perRem_perm hpermC p, perRem_split b hnodup p]
  ring

/-- Counterexample to C1 as stated: the sheet `{A: 0.004, B: -0.004}` sums to
exactly zero, yet `suggest_payments` proposes nothing (the only candidate
payment rounds below 0.01), so applying the plan leaves A's balance at
0.004 ≠ 0. -/
theorem settlement_leaves_subcent_balance :
    (([("A", (1:ℚ)/250), ("B", -(1:ℚ)/250)].map (fun kv => kv.2)).sum = 0) ∧
    balLookup [("A", (1:ℚ)/250), ("B", -(1:ℚ)/250)] "A" +
      applyNet (suggest_payments [("A", (1:ℚ)/250), ("B", -(1:ℚ)/250)]) "A" = 1/250 := by
  constructor
  · norm_num
  · have h0 : round2 ((1:ℚ)/250) = 0 := by
      have := round2_val ((1:ℚ)/250) 0 (by norm_num) (by norm_num)
      simpa using this
    have E : suggest_payments [("A", (1:ℚ)/250), ("B", -(1:ℚ)/250)] = [] := by
      norm_num +decide [suggest_payments, suggestRun, creditorsOf, debtorsOf, sortDesc,
        insertDesc, spLoop, List.filterMap, List.filter, List.foldl, h0]
    rw [E]
    norm_num +decide [applyNet, balLookup, alookupQ]

/-- Witness for C1 (amended) at the spec's scenario 3 sheet
`{A: 30, B: -10, C: -20}`: the plan restores B to zero. -/
theorem settlement_zeroes_cent_balances_witness :
    (([("A", (30:ℚ)), ("B", -10), ("C", -20)].map Prod.fst).Nodup) ∧
    balLookup [("A", (30:ℚ)), ("B", -10), ("C", -20)] "B" +
      applyNet (suggest_payments [("A", (30:ℚ)), ("B", -10), ("C", -20)]) "B" = 0 :=
  ⟨by decide, settlement_zeroes_cent_balances [("A", (30:ℚ)), ("B", -10), ("C", -20)]
    (by
      intro kv hkv
      simp only [List.mem_cons, List.not_mem_nil, or_false] at hkv
      rcases hkv with rfl | rfl | rfl
      · exact ⟨3000, by norm_num⟩
      · exact ⟨-1000, by norm_num⟩
      · exact ⟨-2000, by norm_num⟩)
    (by norm_num)
    (by decide) "B"⟩

theorem StoreExt.rfl (st : Store) : StoreExt st st := ⟨le_refl _, fun _ _ => Eq.refl _⟩

theorem StoreExt.trans {s₁ s₂ s₃ : Store} (h1 : StoreExt s₁ s₂) (h2 : StoreExt s₂ s₃) :
    StoreExt s₁ s₃ := by
  refine ⟨le_trans h1.1 h2.1, fun i hi => ?_⟩
  rw [h2.2 i (lt_of_lt_of_le hi h1.1), h1.2 i hi]

theorem StoreExt.append (st : Store) (l : List HVal) : StoreExt st (st ++ l) := by
  refine ⟨by simp, fun i hi => ?_⟩
  exact List.getElem?_append_left hi

theorem StoreExt.set {base st : Store} (h : StoreExt base st) (a : ℕ)
    (ha : base.length ≤ a) (v : HVal) : StoreExt base (st.set a v) := by
  refine ⟨by rw [List.length_set]; exact h.1, fun i hi => ?_⟩
  rw [List.getElem?_set_ne (by omega : a ≠ i), h.2 i hi]

/-- `sanitize_expense_mut` only allocates and writes to the fresh copy: the
original store is untouched, and a returned record is a fresh address. -/
theorem sanitize_expense_mut_ext (st : Store) (a : ℕ) :
    StoreExt st (sanitize_expense_mut st a).1 ∧
    (∀ ca, (sanitize_expense_mut st a).2 = some ca → st.length ≤ ca) := by
  rcases hcell : st[a]? with _ | cell
  · simp only [sanitize_expense_mut, hcell]
    exact ⟨StoreExt.rfl st, by simp⟩
  · cases cell with
    | hnum q =>
      simp only [sanitize_expense_mut, hcell]
      exact ⟨StoreExt.rfl st, by simp⟩
    | hstr s =>
      simp only [sanitize_expense_mut, hcell]
      exact ⟨StoreExt.rfl st, by simp⟩
    | hnone =>
      simp only [sanitize_expense_mut, hcell]
      exact ⟨StoreExt.rfl st, by simp⟩
    | hlist l =>
      simp only [sanitize_expense_mut, hcell]
      exact ⟨StoreExt.append st _, by simp⟩
    | hdict d =>
      simp only [sanitize_expense_mut, hcell]
      split
      · exact ⟨StoreExt.append st _, by simp⟩
      · split
        · split
          · refine ⟨?_, by simp⟩
            exact StoreExt.set
              (StoreExt.trans (StoreExt.append st _) (StoreExt.append _ _))
              _ (le_refl _) _
          · refine ⟨?_, ?_⟩
            · exact StoreExt.set
                (StoreExt.trans
                  (StoreExt.trans
                    (StoreExt.set
                      (StoreExt.trans (StoreExt.append st _) (StoreExt.append _ _))
                      _ (le_refl _) _)
                    (StoreExt.append _ _))
                  (StoreExt.append _ _))
                _ (le_refl _) _
            · intro c hc
              simp only [Option.some.injEq] at hc
              omega
        · refine ⟨?_, ?_⟩
          · exact StoreExt.set
              (StoreExt.trans
                (StoreExt.trans
                  (StoreExt.set
                    (StoreExt.trans (StoreExt.append st _) (StoreExt.append _ _))
                    _ (le_refl _) _)
                  (StoreExt.append _ _))
                (StoreExt.append _ _))
              _ (le_refl _) _
          · intro c hc
            simp only [Option.some.injEq] at hc
            omega
        · refine ⟨?_, ?_⟩
          · exact StoreExt.set
              (StoreExt.trans
                (StoreExt.set
                  (StoreExt.trans (StoreExt.append st _) (StoreExt.append _ _))
                  _ (le_refl _) _)
                (StoreExt.append _ _))
              _ (le_refl _) _
          · intro c hc
            simp only [Option.some.injEq] at hc
            omega

/-- `sanitize_all_mut` preserves every original cell and returns only fresh
addresses. -/
theorem sanitize_all_mut_ext : ∀ (recs : List ℕ) (st : Store),
    StoreExt st (sanitize_all_mut st recs).1 ∧
    ∀ ca ∈ (sanitize_all_mut st recs).2, st.length ≤ ca := by
  intro recs
  induction recs with
  | nil =>
    intro st
    exact ⟨StoreExt.rfl st, by simp [sanitize_all_mut]⟩
  | cons a rest ih =>
    intro st
    obtain ⟨h1, h2⟩ := sanitize_expense_mut_ext st a
    obtain ⟨h3, h4⟩ := ih (sanitize_expense_mut st a).1
    constructor
    · simp only [sanitize_all_mut]
      split
      · exact StoreExt.trans h1 h3
      · exact StoreExt.trans h1 h3
    · simp only [sanitize_all_mut]
      split
      · next ca hca =>
        intro c hc
        rcases List.mem_cons.mp hc with rfl | hc'
        · exact h2 c hca
        · exact le_trans h1.1 (h4 c hc')
      · next hca =>
        intro c hc
        exact le_trans h1.1 (h4 c hc)

/-- C9: `sanitize_all` and `calculate_balances` never mutate their input:
every cell of the original store — the records and, in particular, their
`participants` structures — is unchanged after either call, and every
sanitized record returned is a fresh copy (allocated beyond the original
store). -/
theorem sanitize_calc_no_mutation (st : Store) (recs : List ℕ) :
    (∀ i, i < st.length → (sanitize_all_mut st recs).1[i]? = st[i]?) ∧
    (∀ ca ∈ (sanitize_all_mut st recs).2, st.length ≤ ca) ∧
    (∀ i, i < st.length → (calculate_balances_mut st recs).1[i]? = st[i]?) := by
  obtain ⟨⟨_, h1⟩, h2⟩ := sanitize_all_mut_ext recs st
  exact ⟨h1, h2, h1⟩

/-- Witness for C9 at a one-cell store: sanitizing the (bad) record at
address 0 leaves the cell unchanged. -/
theorem sanitize_calc_no_mutation_witness :
    (0:ℕ) < ([HVal.hnum 5] : Store).length ∧
    (sanitize_all_mut [HVal.hnum 5] [0]).1[0]? = ([HVal.hnum 5] : Store)[0]? :=
  ⟨by decide, (sanitize_calc_no_mutation [HVal.hnum 5] [0]).1 0 (by decide)⟩
